import Mathlib

/-!
# Verification of the RICE prioritization core

A shallow embedding of the scoring/ranking engine and the import/export
normalization layer of the `prioritise-features` repository (files
`lib/rice.ts` and `lib/csv.ts`), together with theorems settling the
specification's claims.

Modelling conventions:
* JavaScript numbers are modelled as rationals (`ℚ`).  JavaScript `NaN` and
  `±Infinity` never escape the modelled functions (the source guards every
  division and checks `Number.isFinite`), so an `Option ℚ` result models
  `number | null` / `number | undefined`.
* JavaScript strings are Lean `String`s; character-level scanning works on
  `String.data : List Char`.
* `String.prototype.trim` / `toLowerCase` are modelled on the ASCII range
  (the only range the scale labels and header names use).
* Runtime values of the TypeScript union `number | Label` are modelled as
  `ℚ ⊕ String`: at runtime the label side is an arbitrary string (imported
  JSON can put any string there), and JS property lookup on the scale
  record is an exact, case-sensitive string match.
-/

/-- ASCII model of `String.prototype.toLowerCase` on one character. -/
def jsCharToLower (c : Char) : Char :=
  if 'A' ≤ c ∧ c ≤ 'Z' then Char.ofNat (c.toNat + 32) else c

/-- ASCII model of `String.prototype.toLowerCase`. -/
def jsToLower (s : String) : String := ⟨s.data.map jsCharToLower⟩

/-- JS whitespace as relevant here (ASCII part of the `TrimString` set). -/
def isJsWs (c : Char) : Bool :=
  c = ' ' || c = '\t' || c = '\n' || c = '\r' || c = '\x0b' || c = '\x0c'

/-- Trim on character lists: drop whitespace at both ends. -/
def trimChars (cs : List Char) : List Char :=
  ((cs.dropWhile isJsWs).reverse.dropWhile isJsWs).reverse

/-- Model of `String.prototype.trim`. -/
def jsTrim (s : String) : String := ⟨trimChars s.data⟩

/-- Three-way comparison of rationals. -/
def cmpQ (x y : ℚ) : Ordering :=
  if x < y then .lt else if y < x then .gt else .eq

/-- Three-way comparison where `none` stands for `-Infinity`. -/
def cmpBot : Option ℚ → Option ℚ → Ordering
  | none, none => .eq
  | none, some _ => .lt
  | some _, none => .gt
  | some a, some b => cmpQ a b

/-- Three-way comparison where `none` stands for `+Infinity`. -/
def cmpTop : Option ℚ → Option ℚ → Ordering
  | none, none => .eq
  | none, some _ => .gt
  | some _, none => .lt
  | some a, some b => cmpQ a b

/-- Code-point comparison of strings; models `localeCompare` (whose exact
collation is environment-dependent) by the code-unit lexical order. -/
def cmpStr (s t : String) : Ordering :=
  if s < t then .lt else if t < s then .gt else .eq

/-! ## The domain model (`lib/rice.ts`) -/

/-- Runtime value of the TypeScript union `number | Label`. -/
abbrev NumOrLabel := ℚ ⊕ String

/-- `RiceScales`: label→weight tables plus the reach unit label.  The
tables are string-keyed partial maps, as JS record property access is. -/
structure RiceScales where
  reachUnitLabel : String
  impact : String → Option ℚ
  confidence : String → Option ℚ
  effort : String → Option ℚ

/-- `Feature`: one prioritizable item. -/
structure Feature where
  id : String
  name : String
  description : Option String
  reach : Option ℚ
  impact : Option NumOrLabel
  confidence : Option NumOrLabel
  effort : Option NumOrLabel
  score : Option ℚ
  createdAtIso : String
  updatedAtIso : String
deriving DecidableEq

/-- `DEFAULT_RICE_SCALES` from `lib/rice.ts`. -/
def DEFAULT_RICE_SCALES : RiceScales where
  reachUnitLabel := "customers per quarter"
  impact := fun s =>
    if s = "Massive" then some 3
    else if s = "High" then some 2
    else if s = "Medium" then some 1
    else if s = "Low" then some (1/2)
    else if s = "Minimal" then some (1/4)
    else none
  confidence := fun s =>
    if s = "100%" then some 1
    else if s = "80%" then some (4/5)
    else if s = "50%" then some (1/2)
    else none
  effort := fun s =>
    if s = "XS" then some (1/2)
    else if s = "S" then some 1
    else if s = "M" then some 2
    else if s = "L" then some 4
    else if s = "XL" then some 8
    else none

/-- `toNumericImpact`: numbers pass through, labels are looked up
(case-sensitively, as JS property access is). -/
def toNumericImpact (value : Option NumOrLabel) (scales : RiceScales) : Option ℚ :=
  match value with
  | none => none
  | some (Sum.inl n) => some n
  | some (Sum.inr s) => scales.impact s

/-- `toNumericConfidence`. -/
def toNumericConfidence (value : Option NumOrLabel) (scales : RiceScales) : Option ℚ :=
  match value with
  | none => none
  | some (Sum.inl n) => some n
  | some (Sum.inr s) => scales.confidence s

/-- `toNumericEffort`. -/
def toNumericEffort (value : Option NumOrLabel) (scales : RiceScales) : Option ℚ :=
  match value with
  | none => none
  | some (Sum.inl n) => some n
  | some (Sum.inr s) => scales.effort s

/-- `computeRiceScore`: `null` (here `none`) when inputs are incomplete or
invalid, otherwise the exact quotient.  In the rational model the final
`Number.isFinite` guard of the source is always satisfied. -/
def computeRiceScore (feature : Feature) (scales : RiceScales) : Option ℚ :=
  match feature.reach, toNumericImpact feature.impact scales,
        toNumericConfidence feature.confidence scales,
        toNumericEffort feature.effort scales with
  | some reach, some impact, some confidence, some effort =>
    if reach < 0 then none
    else if effort ≤ 0 then none
    else some ((reach * impact * confidence) / effort)
  | _, _, _, _ => none

/-- `compareByRice`: the source returns a signed number whose only observable
content (to `Array.prototype.sort`) is its sign; the model returns that sign
as an `Ordering`.  `??`-coalescing to `±Infinity` is modelled by `cmpBot` /
`cmpTop` on the unresolved (`none`) values. -/
def compareByRice (a b : Feature) (scales : RiceScales) : Ordering :=
  let scoreA := computeRiceScore a scales
  let scoreB := computeRiceScore b scales
  -- `normScoreA !== normScoreB` with undefined coalesced to -Infinity
  if cmpBot scoreA scoreB ≠ Ordering.eq then
    -- sign of `normScoreB - normScoreA`
    cmpBot scoreB scoreA
  else
    let effortA := toNumericEffort a.effort scales
    let effortB := toNumericEffort b.effort scales
    if cmpTop effortA effortB ≠ Ordering.eq then
      -- sign of `effortA - effortB` with undefined coalesced to +Infinity
      cmpTop effortA effortB
    else
      let impactA := toNumericImpact a.impact scales
      let impactB := toNumericImpact b.impact scales
      if cmpBot impactA impactB ≠ Ordering.eq then
        -- sign of `impactB - impactA`
        cmpBot impactB impactA
      else
        cmpStr a.name b.name

/-- The ranking order exactly as the specification words it: score
descending with undefined as `-∞`, then resolved effort ascending with
unresolved as `+∞`, then resolved impact descending with unresolved as
`-∞`, then name ascending. -/
def specRankingCompare (a b : Feature) (scales : RiceScales) : Ordering :=
  (cmpBot (computeRiceScore b scales) (computeRiceScore a scales)).then
    ((cmpTop (toNumericEffort a.effort scales) (toNumericEffort b.effort scales)).then
      ((cmpBot (toNumericImpact b.impact scales) (toNumericImpact a.impact scales)).then
        (cmpStr a.name b.name)))

/-! ## Helper lemmas on the comparison primitives -/

theorem cmpQ_eq_iff (x y : ℚ) : cmpQ x y = Ordering.eq ↔ x = y := by
  unfold cmpQ
  split_ifs with h1 h2
  · simp only [reduceCtorEq, false_iff]; exact fun h => absurd h (by rintro rfl; exact lt_irrefl _ h1)
  · simp only [reduceCtorEq, false_iff]; exact fun h => absurd h (by rintro rfl; exact lt_irrefl _ h2)
  · simp only [true_iff]; exact le_antisymm (not_lt.mp h2) (not_lt.mp h1)

theorem cmpBot_eq_iff (x y : Option ℚ) : cmpBot x y = Ordering.eq ↔ x = y := by
  cases x <;> cases y <;> simp [cmpBot, cmpQ_eq_iff]

theorem cmpTop_eq_iff (x y : Option ℚ) : cmpTop x y = Ordering.eq ↔ x = y := by
  cases x <;> cases y <;> simp [cmpTop, cmpQ_eq_iff]

theorem cmpBot_self (x : Option ℚ) : cmpBot x x = Ordering.eq :=
  (cmpBot_eq_iff x x).mpr rfl

theorem cmpTop_self (x : Option ℚ) : cmpTop x x = Ordering.eq :=
  (cmpTop_eq_iff x x).mpr rfl

/-! ## Claims C1–C3 -/

/-- **C1.** For every feature whose reach is a number `≥ 0` and whose impact,
confidence and effort each resolve to a number (used directly when numeric,
looked up in the scale tables when a label) with resolved effort `> 0`,
`computeRiceScore` returns exactly `(reach × impact × confidence) / effort`
with no rounding. -/
theorem c1_computeRiceScore_exact (f : Feature) (r i c e : ℚ)
    (hr : f.reach = some r) (hr0 : 0 ≤ r)
    (hi : toNumericImpact f.impact DEFAULT_RICE_SCALES = some i)
    (hc : toNumericConfidence f.confidence DEFAULT_RICE_SCALES = some c)
    (he : toNumericEffort f.effort DEFAULT_RICE_SCALES = some e) (he0 : 0 < e) :
    computeRiceScore f DEFAULT_RICE_SCALES = some ((r * i * c) / e) := by
  unfold computeRiceScore
  rw [hr, hi, hc, he]
  show (if r < 0 then none
        else if e ≤ 0 then none else some ((r * i * c) / e)) = some ((r * i * c) / e)
  rw [if_neg (not_lt.mpr hr0), if_neg (not_le.mpr he0)]

/-- **C1 witness.** reach = 100, impact = "High", confidence = "80%",
effort = "M" yields exactly 80. -/
theorem c1_witness :
    computeRiceScore
      ⟨"id1", "A", none, some 100, some (Sum.inr "High"), some (Sum.inr "80%"),
        some (Sum.inr "M"), none, "t0", "t0"⟩ DEFAULT_RICE_SCALES = some 80 := by
  have h := c1_computeRiceScore_exact
    ⟨"id1", "A", none, some 100, some (Sum.inr "High"), some (Sum.inr "80%"),
      some (Sum.inr "M"), none, "t0", "t0"⟩ 100 2 (4/5) 2
    rfl (by norm_num)
    (by simp [toNumericImpact, DEFAULT_RICE_SCALES])
    (by simp [toNumericConfidence, DEFAULT_RICE_SCALES])
    (by simp [toNumericEffort, DEFAULT_RICE_SCALES])
    (by norm_num)
  rw [h]; norm_num

/-- **C2.** `computeRiceScore` is a total function into `Option ℚ` (it never
throws, and in the rational model of finite JS numbers it never produces
`NaN`/`±Infinity`): it returns `none` exactly when reach is unset or
negative, or impact/confidence/effort fails to resolve, or resolved effort
is `≤ 0`. -/
theorem c2_computeRiceScore_none_iff (f : Feature) (scales : RiceScales) :
    computeRiceScore f scales = none ↔
      (f.reach = none ∨ (∃ r, f.reach = some r ∧ r < 0) ∨
       toNumericImpact f.impact scales = none ∨
       toNumericConfidence f.confidence scales = none ∨
       toNumericEffort f.effort scales = none ∨
       (∃ e, toNumericEffort f.effort scales = some e ∧ e ≤ 0)) := by
  unfold computeRiceScore
  rcases hr : f.reach with _ | r <;>
    rcases hi : toNumericImpact f.impact scales with _ | i <;>
      rcases hc : toNumericConfidence f.confidence scales with _ | c <;>
        rcases he : toNumericEffort f.effort scales with _ | e <;>
          simp_all
  by_cases h0 : r < 0
  · simp [h0, not_le.mpr h0]
  · simp [h0, le_of_not_lt h0]

/-- **C2 witness.** A feature with a zero effort gets no score (`none`). -/
theorem c2_witness :
    computeRiceScore
      ⟨"id2", "B", none, some 10, some (Sum.inl 1), some (Sum.inl 1),
        some (Sum.inl 0), none, "t0", "t0"⟩ DEFAULT_RICE_SCALES = none := by
  exact (c2_computeRiceScore_none_iff _ DEFAULT_RICE_SCALES).mpr
    (Or.inr (Or.inr (Or.inr (Or.inr (Or.inr ⟨0, rfl, le_refl 0⟩)))))

/-- **C3.** `compareByRice` realizes exactly the specified total order:
score descending with undefined as `-∞`, then resolved effort ascending
with unresolved as `+∞`, then resolved impact descending with unresolved
as `-∞`, and finally lexical name ascending. -/
theorem c3_compareByRice_realizes_spec_order (a b : Feature) (scales : RiceScales) :
    compareByRice a b scales = specRankingCompare a b scales := by
  simp only [compareByRice, specRankingCompare]
  by_cases h1 : computeRiceScore a scales = computeRiceScore b scales
  · have e1 : cmpBot (computeRiceScore a scales) (computeRiceScore b scales) = Ordering.eq := by
      rw [h1]; exact cmpBot_self _
    have e1' : cmpBot (computeRiceScore b scales) (computeRiceScore a scales) = Ordering.eq := by
      rw [h1]; exact cmpBot_self _
    rw [if_neg (by simp [e1]), e1']
    simp only [Ordering.then]
    by_cases h2 : toNumericEffort a.effort scales = toNumericEffort b.effort scales
    · have e2 : cmpTop (toNumericEffort a.effort scales) (toNumericEffort b.effort scales)
          = Ordering.eq := by rw [h2]; exact cmpTop_self _
      rw [if_neg (by simp [e2]), e2]
      simp only [Ordering.then]
      by_cases h3 : toNumericImpact a.impact scales = toNumericImpact b.impact scales
      · have e3 : cmpBot (toNumericImpact a.impact scales) (toNumericImpact b.impact scales)
            = Ordering.eq := by rw [h3]; exact cmpBot_self _
        have e3' : cmpBot (toNumericImpact b.impact scales) (toNumericImpact a.impact scales)
            = Ordering.eq := by rw [h3]; exact cmpBot_self _
        rw [if_neg (by simp [e3]), e3']
      · have e3 : cmpBot (toNumericImpact a.impact scales) (toNumericImpact b.impact scales)
            ≠ Ordering.eq := fun h => h3 ((cmpBot_eq_iff _ _).mp h)
        have e3' : cmpBot (toNumericImpact b.impact scales) (toNumericImpact a.impact scales)
            ≠ Ordering.eq := fun h => h3 (((cmpBot_eq_iff _ _).mp h).symm)
        rw [if_pos (by simpa using e3)]
        cases hcb : cmpBot (toNumericImpact b.impact scales) (toNumericImpact a.impact scales) with
        | lt => simp [Ordering.then]
        | eq => exact absurd hcb e3'
        | gt => simp [Ordering.then]
    · have e2 : cmpTop (toNumericEffort a.effort scales) (toNumericEffort b.effort scales)
          ≠ Ordering.eq := fun h => h2 ((cmpTop_eq_iff _ _).mp h)
      rw [if_pos (by simpa using e2)]
      cases hct : cmpTop (toNumericEffort a.effort scales) (toNumericEffort b.effort scales) with
      | lt => simp [Ordering.then]
      | eq => exact absurd hct e2
      | gt => simp [Ordering.then]
  · have e1 : cmpBot (computeRiceScore a scales) (computeRiceScore b scales)
        ≠ Ordering.eq := fun h => h1 ((cmpBot_eq_iff _ _).mp h)
    have e1' : cmpBot (computeRiceScore b scales) (computeRiceScore a scales)
        ≠ Ordering.eq := fun h => h1 (((cmpBot_eq_iff _ _).mp h).symm)
    rw [if_pos (by simpa using e1)]
    cases hcb : cmpBot (computeRiceScore b scales) (computeRiceScore a scales) with
    | lt => simp [Ordering.then]
    | eq => exact absurd hcb e1'
    | gt => simp [Ordering.then]

/-! ## JS number conversions

`Number(string)` and `String(number)` restricted to plain decimal notation.
Deviations from full JS, none of which the import flows can observe through
the `Number.isFinite` guards of the source: hex/octal/binary literals and
`Infinity` parse to `none` (non-finite results are `none` throughout), and
very large/small magnitudes are printed in plain positional notation rather
than exponent notation (both notations re-parse to the same value). -/

/-- Digit list → value, most significant first. -/
def natOfDigits (ds : List Char) : ℕ :=
  ds.foldl (fun n c => n * 10 + (c.toNat - 48)) 0

/-- The exponent suffix of a decimal literal (after the `e`/`E`). -/
def parseExpDigits (cs : List Char) : Option (Bool × ℕ) × List Char :=
  let signAndRest : Bool × List Char :=
    if cs.head? = some '+' then (true, cs.tail)
    else if cs.head? = some '-' then (false, cs.tail)
    else (true, cs)
  let r := signAndRest.2
  (if (r.takeWhile Char.isDigit).isEmpty then none
   else some (signAndRest.1, natOfDigits (r.takeWhile Char.isDigit)), r.dropWhile Char.isDigit)

/-- Decimal-literal part of `Number(string)` on an already-trimmed character
list; `none` models a non-finite result (`NaN`/`±Infinity`). -/
def jsNumChars (cs0 : List Char) : Option ℚ :=
  if cs0.isEmpty then some 0
  else
    let signAndRest : Bool × List Char :=
      if cs0.head? = some '+' then (false, cs0.tail)
      else if cs0.head? = some '-' then (true, cs0.tail)
      else (false, cs0)
    let neg := signAndRest.1
    let cs1 := signAndRest.2
    let ip := cs1.takeWhile Char.isDigit
    let cs2 := cs1.dropWhile Char.isDigit
    let fpAndRest : List Char × List Char :=
      if cs2.head? = some '.' then (cs2.tail.takeWhile Char.isDigit, cs2.tail.dropWhile Char.isDigit)
      else ([], cs2)
    let fp := fpAndRest.1
    let cs3 := fpAndRest.2
    if ip.isEmpty ∧ fp.isEmpty then none
    else
      let expAndRest : Option (Bool × ℕ) × List Char :=
        if cs3.head? = some 'e' ∨ cs3.head? = some 'E' then parseExpDigits cs3.tail
        else (some (true, 0), cs3)
      match expAndRest.1 with
      | none => none
      | some (epos, emag) =>
        if expAndRest.2.isEmpty then
          let mag : ℚ := ((natOfDigits ip : ℚ) + (natOfDigits fp : ℚ) / 10 ^ fp.length)
                          * (if epos then 10 ^ emag else 1 / 10 ^ emag)
          some (if neg then -mag else mag)
        else none

/-- `Number(string)` composed with the `Number.isFinite` guard every caller
in the source applies: `none` when the result is not a finite number. -/
def jsNumber (s : String) : Option ℚ := jsNumChars (trimChars s.data)

/-- Decimal digits of a natural number, most significant first (`[]` for 0). -/
def natToDigitsAux : ℕ → ℕ → List Char
  | 0, _ => []
  | fuel+1, n => if n = 0 then [] else natToDigitsAux fuel (n / 10) ++ [Char.ofNat (48 + n % 10)]

/-- Decimal digits of a natural number, most significant first (`[]` for 0). -/
def natToDigits (n : ℕ) : List Char := natToDigitsAux (n + 1) n

/-- Multiplicity of `p` in `n` (0 when `p < 2` or `n = 0`). -/
def factorCountAux : ℕ → ℕ → ℕ → ℕ
  | 0, _, _ => 0
  | fuel+1, p, n => if 2 ≤ p ∧ p ∣ n ∧ n ≠ 0 then factorCountAux fuel p (n / p) + 1 else 0

/-- Multiplicity of `p` in `n` (0 when `p < 2` or `n = 0`). -/
def factorCount (p n : ℕ) : ℕ := factorCountAux n p n

/-- Number of decimal places needed for `q`'s exact decimal expansion. -/
def decExp (q : ℚ) : ℕ := max (factorCount 2 q.den) (factorCount 5 q.den)

/-- `q` has a finite decimal expansion (true of every JS double). -/
def IsFiniteDecimal (q : ℚ) : Prop := q.den ∣ 10 ^ decExp q

instance (q : ℚ) : Decidable (IsFiniteDecimal q) := by
  unfold IsFiniteDecimal; infer_instance

/-- The scaled integer `q · 10^decExp q` (exact when `q` is finite-decimal). -/
def qMantissa (q : ℚ) : ℤ := q.num * ((10 ^ decExp q) / q.den : ℕ)

/-- The digit run of `q`'s decimal expansion, padded so that a decimal
point can be placed `decExp q` digits from the right. -/
def qPadded (q : ℚ) : List Char :=
  List.replicate (decExp q + 1 - (natToDigits (qMantissa q).natAbs).length) '0' ++
    natToDigits (qMantissa q).natAbs

/-- The unsigned part of `String(number)`: plain digits, or digits with an
embedded decimal point. -/
def qDigitsPart (q : ℚ) : List Char :=
  if decExp q = 0 then qPadded q
  else (qPadded q).take ((qPadded q).length - decExp q) ++
    '.' :: (qPadded q).drop ((qPadded q).length - decExp q)

/-- `String(number)` in plain decimal positional notation. -/
def qToString (q : ℚ) : String :=
  if q.den ∣ 10 ^ decExp q then
    if qMantissa q < 0 then ⟨'-' :: qDigitsPart q⟩ else ⟨qDigitsPart q⟩
  else "NaN" -- unreachable for JS doubles: they are dyadic, hence finite-decimal

/-! ## The delimited-text parser (`lib/csv.ts`, `parseCsv`) -/

/-- Inside a double-quoted cell: `""` is one literal quote, a single `"`
closes the cell, a missing closing quote ends at EOF.  The accumulator is
the cell value built so far (`value += ch` of the source). -/
def readQuoted : List Char → List Char → String × List Char
  | [], acc => (⟨acc⟩, [])
  | c :: rest, acc =>
    if c = '"' then
      match rest with
      | c2 :: rest2 =>
        if c2 = '"' then readQuoted rest2 (acc ++ ['"']) -- escaped quote
        else (⟨acc⟩, rest) -- closing quote
      | [] => (⟨acc⟩, []) -- closing quote at EOF
    else readQuoted rest (acc ++ [c])

/-- Does this character end an unquoted cell? -/
def isCellEnd (c : Char) : Bool := c = ',' || c = '\n' || c = '\r'

/-- `readCell` of the source: quoted cells verbatim (with `""` unescaped),
unquoted cells up to `,`/newline/CR, trimmed. -/
def readCell (cs : List Char) : String × List Char :=
  if cs.head? = some '"' then readQuoted cs.tail []
  else
    (⟨trimChars (cs.takeWhile (fun c => !isCellEnd c))⟩,
      cs.dropWhile (fun c => !isCellEnd c))

/-- Skip the rest of the physical line: everything up to and including the
next `\n`. -/
def skipLine (cs : List Char) : List Char :=
  let r := cs.dropWhile (· != '\n')
  if r.head? = some '\n' then r.tail else r

/-- One row of cells: cells separated by commas; a comma directly before
EOF ends the row without a further (empty) cell, any other cell terminator
ends the row and skips to the next line.  Fuel-driven: each recursive step
consumes the separating comma, so `cs.length + 1` fuel always suffices. -/
def parseRowAux : ℕ → List Char → List String × List Char
  | 0, cs => ([], cs)
  | fuel+1, cs =>
    let cellAndRest := readCell cs
    if cellAndRest.2.head? = some ',' then
      if cellAndRest.2.tail.isEmpty then ([cellAndRest.1], [])
      else
        let more := parseRowAux fuel cellAndRest.2.tail
        (cellAndRest.1 :: more.1, more.2)
    else ([cellAndRest.1], skipLine cellAndRest.2)

/-- All rows: skip CR/LF at a row start, stop at EOF, drop rows that are a
single empty cell.  Fuel-driven: each step consumes at least one character,
so `cs.length + 1` fuel always suffices. -/
def parseRowsAux : ℕ → List Char → List (List String)
  | 0, _ => []
  | fuel+1, cs =>
    let cs1 := cs.dropWhile (fun c => c = '\n' || c = '\r')
    if cs1.isEmpty then []
    else
      let rowAndRest := parseRowAux (cs1.length + 1) cs1
      let rows := parseRowsAux fuel rowAndRest.2
      if rowAndRest.1 = [""] then rows else rowAndRest.1 :: rows

/-- `parseCsv` of the source. -/
def parseCsv (text : String) : List (List String) :=
  parseRowsAux (text.data.length + 1) text.data

/-! ## The import normalizer (`lib/csv.ts`) -/

/-- `HEADER_ORDER`. -/
def HEADER_ORDER : List String :=
  ["name", "reach", "impact", "confidence", "effort", "description"]

/-- `normalizeHeader`: case-insensitive match against the fixed header set. -/
def normalizeHeader (h : String) : Option String :=
  let key := jsToLower (jsTrim h)
  if key = "name" || key = "reach" || key = "impact" || key = "confidence"
      || key = "effort" || key = "description" then some key else none

/-- The `headerRow.forEach` loop: successive assignments into `headerIdx`,
a later column with the same header name overwriting an earlier one. -/
def buildHeaderIdx : List String → ℕ → (String → Option ℕ) → (String → Option ℕ)
  | [], _, acc => acc
  | h :: t, idx, acc =>
    match normalizeHeader h with
    | some key => buildHeaderIdx t (idx + 1) (fun k => if k = key then some idx else acc k)
    | none => buildHeaderIdx t (idx + 1) acc

/-- `toNumberOrUndefined`. -/
def toNumberOrUndefined (v : String) : Option ℚ :=
  if jsTrim v = "" then none else jsNumber v

/-- `normalizeImpact`: numeric strings pass through as numbers, otherwise a
case-insensitive label lookup. -/
def normalizeImpact (v : String) : Option NumOrLabel :=
  if jsTrim v = "" then none
  else
    let trimmed := jsTrim v
    match jsNumber trimmed with
    | some n => some (Sum.inl n)
    | none =>
      let lower := jsToLower trimmed
      if lower = "massive" then some (Sum.inr "Massive")
      else if lower = "high" then some (Sum.inr "High")
      else if lower = "medium" then some (Sum.inr "Medium")
      else if lower = "low" then some (Sum.inr "Low")
      else if lower = "minimal" then some (Sum.inr "Minimal")
      else none

/-- `normalizeConfidence`.  The source's lookup map also has entries for the
bare keys `"100"`/`"80"`/`"50"`; they are kept here exactly as in the source,
where they are unreachable because `Number(trimmed)` is finite on those
strings and the numeric branch returns first. -/
def normalizeConfidence (v : String) : Option NumOrLabel :=
  if jsTrim v = "" then none
  else
    let trimmed := jsTrim v
    match jsNumber trimmed with
    | some n => some (Sum.inl n)
    | none =>
      let lower := jsToLower trimmed
      if lower = "100%" then some (Sum.inr "100%")
      else if lower = "80%" then some (Sum.inr "80%")
      else if lower = "50%" then some (Sum.inr "50%")
      else if lower = "100" then some (Sum.inr "100%")
      else if lower = "80" then some (Sum.inr "80%")
      else if lower = "50" then some (Sum.inr "50%")
      else none

/-- `normalizeEffort`. -/
def normalizeEffort (v : String) : Option NumOrLabel :=
  if jsTrim v = "" then none
  else
    let trimmed := jsTrim v
    match jsNumber trimmed with
    | some n => some (Sum.inl n)
    | none =>
      let lower := jsToLower trimmed
      if lower = "xs" then some (Sum.inr "XS")
      else if lower = "s" then some (Sum.inr "S")
      else if lower = "m" then some (Sum.inr "M")
      else if lower = "l" then some (Sum.inr "L")
      else if lower = "xl" then some (Sum.inr "XL")
      else none

/-- Result record of the importers. -/
structure CsvParseResult where
  features : List Feature
  errors : List (ℕ × String)
deriving DecidableEq

/-- `row[idx] ?? ""` behind the header-index lookup (an absent header reads
`row[undefined]`, which is `undefined`, hence `""`). -/
def getCell (headerIdx : String → Option ℕ) (row : List String) (h : String) : String :=
  match headerIdx h with
  | some idx => row.getD idx ""
  | none => ""

/-- The per-data-row loop of `parseCsvToFeatures`.  `mkId` stands for the
wall-clock-derived id generator, `nowIso` for `new Date().toISOString()`;
`r` is the 0-based index of the current row among the data rows plus 1
(i.e. the row's index in `rows`). -/
def processDataRows (mkId : ℕ → String) (nowIso : String)
    (headerIdx : String → Option ℕ) : List (List String) → ℕ → List Feature × List (ℕ × String)
  | [], _ => ([], [])
  | row :: rows, r =>
    let get := getCell headerIdx row
    let name := jsTrim (get "name")
    let reachRaw := get "reach"
    let impactRaw := get "impact"
    let confidenceRaw := get "confidence"
    let effortRaw := get "effort"
    let reach := toNumberOrUndefined reachRaw
    let impact := normalizeImpact impactRaw
    let confidence := normalizeConfidence confidenceRaw
    let effort := normalizeEffort effortRaw
    let description :=
      if (headerIdx "description").isSome then
        (let d := jsTrim (get "description"); if d = "" then none else some d)
      else none
    if name = "" then
      let more := processDataRows mkId nowIso headerIdx rows (r + 1)
      (more.1, (r + 1, "Missing required field: name") :: more.2)
    else
      let e1 : List (ℕ × String) :=
        if jsTrim impactRaw ≠ "" ∧ impact = none then
          [(r + 1, "Unrecognized impact: " ++ impactRaw)] else []
      let e2 : List (ℕ × String) :=
        if jsTrim confidenceRaw ≠ "" ∧ confidence = none then
          [(r + 1, "Unrecognized confidence: " ++ confidenceRaw)] else []
      let e3 : List (ℕ × String) :=
        if jsTrim effortRaw ≠ "" ∧ effort = none then
          [(r + 1, "Unrecognized effort: " ++ effortRaw)] else []
      let feature : Feature :=
        { id := mkId r, name := name, description := description, reach := reach,
          impact := impact, confidence := confidence, effort := effort,
          score := none, createdAtIso := nowIso, updatedAtIso := nowIso }
      let more := processDataRows mkId nowIso headerIdx rows (r + 1)
      (feature :: more.1, e1 ++ e2 ++ e3 ++ more.2)

/-- `REQUIRED`-headers list of `parseCsvToFeatures`. -/
def REQUIRED_HEADERS : List String := ["name", "reach", "impact", "confidence", "effort"]

/-- `parseCsvToFeatures`. -/
def parseCsvToFeatures (mkId : ℕ → String) (nowIso : String) (csvText : String) : CsvParseResult :=
  match parseCsv csvText with
  | [] => ⟨[], []⟩
  | headerRow :: dataRows =>
    let headerIdx := buildHeaderIdx headerRow 0 (fun _ => none)
    let missingHeaders := REQUIRED_HEADERS.filter (fun h => (headerIdx h).isNone)
    if missingHeaders ≠ [] then
      ⟨[], [(1, "Missing headers: " ++ String.intercalate ", " missingHeaders)]⟩
    else
      let out := processDataRows mkId nowIso headerIdx dataRows 1
      ⟨out.1, out.2⟩

/-! ## The export serializer (`lib/csv.ts`, `featuresToCsv`) -/

/-- `s.replace(/"/g, '""')`. -/
def doubleQuotes : List Char → List Char
  | [] => []
  | c :: t => if c = '"' then '"' :: '"' :: doubleQuotes t else c :: doubleQuotes t

/-- `esc`: quote-wrap (doubling internal quotes) iff the cell contains a
comma or a double quote. -/
def escCell (s : String) : String :=
  if s.data.contains ',' || s.data.contains '"' then
    ⟨'"' :: doubleQuotes s.data ++ ['"']⟩
  else s

/-- The six serialized cells of one feature: labels as labels, numbers via
`String(number)`, absent fields as `""`. -/
def rowCells (f : Feature) : List String :=
  [f.name,
   (match f.reach with | some q => qToString q | none => ""),
   (match f.impact with
    | some (Sum.inl q) => qToString q | some (Sum.inr s) => s | none => ""),
   (match f.confidence with
    | some (Sum.inl q) => qToString q | some (Sum.inr s) => s | none => ""),
   (match f.effort with
    | some (Sum.inl q) => qToString q | some (Sum.inr s) => s | none => ""),
   (match f.description with | some d => d | none => "")]

/-- `Array.prototype.join(sep)` on character lists. -/
def joinChars (sep : Char) : List (List Char) → List Char
  | [] => []
  | l :: rest => if rest.isEmpty then l else l ++ sep :: joinChars sep rest

/-- `Array.prototype.join(sep)` for a one-character separator. -/
def joinStrings (sep : Char) (l : List String) : String :=
  ⟨joinChars sep (l.map String.data)⟩

/-- `featuresToCsv`: the header line, then one line per feature (cells
escaped and joined by commas), lines joined by newlines. -/
def featuresToCsv (features : List Feature) : String :=
  joinStrings '\n'
    (joinStrings ',' HEADER_ORDER ::
      features.map (fun f => joinStrings ',' ((rowCells f).map escCell)))

/-! ## The structured (JSON) importer (`lib/csv.ts`, `parseJsonToFeatures`)

`JSON.parse` is a platform builtin, not repository code; the importer is
modelled on its result: a `Json` value when parsing succeeded, `none` when
it threw.  Quantifying over all `Json` values covers every input text. -/

/- Parsed JSON values: arrays and objects via mutual companions so that
all recursion below is structural and executable. -/
mutual

inductive Json where
  | null : Json
  | bool : Bool → Json
  | num : ℚ → Json
  | str : String → Json
  | arr : JsonList → Json
  | obj : JsonObj → Json

inductive JsonList where
  | nil : JsonList
  | cons : Json → JsonList → JsonList

inductive JsonObj where
  | nil : JsonObj
  | cons : String → Json → JsonObj → JsonObj

end

/-- Property lookup on a parsed JSON object; with duplicate keys the later
entry wins, as in `JSON.parse`. -/
def jlookup : JsonObj → String → Option Json
  | .nil, _ => none
  | .cons k' v t, k =>
    match jlookup t k with
    | some v' => some v'
    | none => if k = k' then some v else none

/- JS string conversion of a JSON value.  `null` converts to `""` in the
one place it can reach a conversion (array joining). -/
mutual

/-- JS string conversion of a JSON value. -/
def jsonToString : Json → String
  | .null => ""
  | .bool b => if b then "true" else "false"
  | .num q => qToString q
  | .str s => s
  | .arr xs => jsonListToString xs
  | .obj _ => "[object Object]"

/-- `Array.prototype.join(",")` on converted elements. -/
def jsonListToString : JsonList → String
  | .nil => ""
  | .cons j .nil => jsonToString j
  | .cons j t => jsonToString j ++ "," ++ jsonListToString t

end

/-- `Number(v)` on a JSON value, composed with the finiteness guard of the
consumers (`none` = non-finite). -/
def jsonToNumber : Json → Option ℚ
  | .num q => some q
  | .bool b => some (if b then 1 else 0)
  | .null => some 0
  | .str s => jsNumber (jsonToString (.str s))
  | .arr xs => jsNumber (jsonToString (.arr xs))
  | .obj o => jsNumber (jsonToString (.obj o))

/-- The raw `name` extraction of one element of the parsed array:
`(obj?.name ?? "").toString()`.  On a non-object element the optional
chain yields `undefined`, hence `""`. -/
def jsonItemNameRaw : Json → String
  | .obj fields =>
    (match jlookup fields "name" with
     | none => ""
     | some .null => ""
     | some (.bool b) => jsonToString (.bool b)
     | some (.num q) => jsonToString (.num q)
     | some (.str s) => jsonToString (.str s)
     | some (.arr xs) => jsonToString (.arr xs)
     | some (.obj o) => jsonToString (.obj o))
  | _ => ""

/-- Positional access into a parsed JSON array. -/
def jsonListGet : JsonList → ℕ → Option Json
  | .nil, _ => none
  | .cons j _, 0 => some j
  | .cons _ t, i+1 => jsonListGet t i

/-- Length of a parsed JSON array. -/
def jsonListLength : JsonList → ℕ
  | .nil => 0
  | .cons _ t => jsonListLength t + 1

/-- The `parsed.forEach` loop of `parseJsonToFeatures`.  A non-object
element has an empty extracted name (see `jsonItemNameRaw`), so it is
always rejected; its `fields` default below is never reached.  A stored
non-string `impact` (etc.) is only ever observed through string-keyed
scale lookup or string conversion, so it is modelled by its JS string
conversion; a `NaN` reach (non-numeric parse) is modelled as the absent
value, which the score calculator treats identically (both yield an
undefined score). -/
def processJsonItems (mkId : ℕ → String) (nowIso : String) :
    JsonList → ℕ → List Feature × List (ℕ × String)
  | .nil, _ => ([], [])
  | .cons item rest, idx =>
    let name := jsTrim (jsonItemNameRaw item)
    if name = "" then
      let more := processJsonItems mkId nowIso rest (idx + 1)
      (more.1, (idx + 1, "Missing required field: name") :: more.2)
    else
      let fields := match item with | .obj fl => fl | _ => JsonObj.nil
      let description :=
        match jlookup fields "description" with
        | none => none
        | some .null => none
        | some (.bool b) => some (jsonToString (.bool b))
        | some (.num q) => some (jsonToString (.num q))
        | some (.str s) => some (jsonToString (.str s))
        | some (.arr xs) => some (jsonToString (.arr xs))
        | some (.obj o) => some (jsonToString (.obj o))
      let reach :=
        match jlookup fields "reach" with
        | none => none
        | some .null => none
        | some (.bool b) => jsonToNumber (.bool b)
        | some (.num q) => jsonToNumber (.num q)
        | some (.str s) => jsonToNumber (.str s)
        | some (.arr xs) => jsonToNumber (.arr xs)
        | some (.obj o) => jsonToNumber (.obj o)
      let toField : Option Json → Option NumOrLabel := fun jv =>
        match jv with
        | none => none
        | some .null => none
        | some (.num q) => some (Sum.inl q)
        | some (.str s) => some (Sum.inr s)
        | some (.bool b) => some (Sum.inr (jsonToString (.bool b)))
        | some (.arr xs) => some (Sum.inr (jsonToString (.arr xs)))
        | some (.obj o) => some (Sum.inr (jsonToString (.obj o)))
      let feature : Feature :=
        { id := mkId idx, name := name, description := description, reach := reach,
          impact := toField (jlookup fields "impact"),
          confidence := toField (jlookup fields "confidence"),
          effort := toField (jlookup fields "effort"),
          score := none, createdAtIso := nowIso, updatedAtIso := nowIso }
      let more := processJsonItems mkId nowIso rest (idx + 1)
      (feature :: more.1, more.2)

/-- `parseJsonToFeatures`, modelled on the result of `JSON.parse` (`none`
when it threw, with `emsg` the exception's message text). -/
def parseJsonToFeatures (mkId : ℕ → String) (nowIso : String) (emsg : String)
    (parsed : Option Json) : CsvParseResult :=
  match parsed with
  | none => ⟨[], [(1, "Invalid JSON: " ++ emsg)]⟩
  | some (.arr items) =>
    let out := processJsonItems mkId nowIso items 0
    ⟨out.1, out.2⟩
  | some _ => ⟨[], [(1, "JSON must be an array of objects")]⟩

/-! ## Claims C4 and C10 -/

/-- **C4.** When the header row of a delimited import lacks any required
column (after case-insensitive header matching), the import aborts: zero
features, exactly one error at row 1 listing the missing headers, and no
data row is processed. -/
theorem c4_missing_headers_abort (mkId : ℕ → String) (nowIso : String) (csvText : String)
    (headerRow : List String) (dataRows : List (List String))
    (hrows : parseCsv csvText = headerRow :: dataRows)
    (hmiss : REQUIRED_HEADERS.filter
        (fun h => (buildHeaderIdx headerRow 0 (fun _ => none) h).isNone) ≠ []) :
    parseCsvToFeatures mkId nowIso csvText =
      ⟨[], [(1, "Missing headers: " ++ String.intercalate ", "
        (REQUIRED_HEADERS.filter
          (fun h => (buildHeaderIdx headerRow 0 (fun _ => none) h).isNone)))]⟩ := by
  unfold parseCsvToFeatures
  rw [hrows]
  simp only [if_pos hmiss]

/-- **C4 witness.** A document whose header lacks only `effort` yields zero
features and exactly one row-1 structural error. -/
theorem c4_witness :
    parseCsvToFeatures (fun _ => "id") "t" "name,reach,impact,confidence\nA,1,2,3" =
      ⟨[], [(1, "Missing headers: effort")]⟩ := by
  have h := c4_missing_headers_abort (fun _ => "id") "t"
    "name,reach,impact,confidence\nA,1,2,3"
    ["name", "reach", "impact", "confidence"] [["A", "1", "2", "3"]]
    (by decide) (by decide)
  rw [h]; decide

/-- **C10.** On empty text, or text consisting only of newlines and
carriage returns, the delimited import returns zero features and zero
errors: with no header row at all, the missing-required-columns error is
not produced. -/
theorem c10_blank_text_no_error (mkId : ℕ → String) (nowIso : String) (csvText : String)
    (h : ∀ c ∈ csvText.data, c = '\n' ∨ c = '\r') :
    parseCsvToFeatures mkId nowIso csvText = ⟨[], []⟩ := by
  have hdrop : csvText.data.dropWhile (fun c => c = '\n' || c = '\r') = [] := by
    rw [List.dropWhile_eq_nil_iff]
    intro x hx
    rcases h x hx with h' | h' <;> simp [h']
  have hp : parseCsv csvText = [] := by
    unfold parseCsv
    simp only [parseRowsAux, hdrop, List.isEmpty_nil, if_true]
  unfold parseCsvToFeatures
  rw [hp]

/-- **C10 witness.** Text of blank lines only: no features, no errors. -/
theorem c10_witness :
    parseCsvToFeatures (fun _ => "id") "t" "\n\r\n\r" = ⟨[], []⟩ :=
  c10_blank_text_no_error (fun _ => "id") "t" "\n\r\n\r" (by decide)

/-! ## Claim C8: quoting in the delimited-text parser -/

theorem takeWhile_append_all {p : Char → Bool} {l1 l2 : List Char}
    (h : ∀ c ∈ l1, p c = true) : (l1 ++ l2).takeWhile p = l1 ++ l2.takeWhile p := by
  induction l1 with
  | nil => simp
  | cons c t ih =>
    have hc := h c (by simp)
    simp only [List.cons_append, List.takeWhile_cons, hc, if_true]
    rw [ih (fun x hx => h x (by simp [hx]))]

theorem dropWhile_append_all {p : Char → Bool} {l1 l2 : List Char}
    (h : ∀ c ∈ l1, p c = true) : (l1 ++ l2).dropWhile p = l2.dropWhile p := by
  induction l1 with
  | nil => simp
  | cons c t ih =>
    have hc := h c (by simp)
    simp only [List.cons_append, List.dropWhile_cons, hc, if_true]
    exact ih (fun x hx => h x (by simp [hx]))


theorem readCell_quote (rest : List Char) : readCell ('"' :: rest) = readQuoted rest [] := by
  unfold readCell; simp

theorem readCell_not_quote {cs : List Char} (h : cs.head? ≠ some '"') :
    readCell cs = (⟨trimChars (cs.takeWhile (fun c => !isCellEnd c))⟩,
      cs.dropWhile (fun c => !isCellEnd c)) := by
  unfold readCell; rw [if_neg h]

theorem readQuoted_doubleQuotes (cs : List Char) : ∀ (rest acc : List Char),
    rest.head? ≠ some '"' →
    readQuoted (doubleQuotes cs ++ '"' :: rest) acc = (⟨acc ++ cs⟩, rest) := by
  induction cs with
  | nil =>
    intro rest acc hq
    cases rest with
    | nil => simp [doubleQuotes, readQuoted]
    | cons c t =>
      have hc : ¬c = '"' := by intro h; exact hq (by simp [h])
      simp [doubleQuotes, readQuoted, hc]
  | cons c t ih =>
    intro rest acc hq
    by_cases hc : c = '"'
    · subst hc
      simp only [doubleQuotes, if_pos rfl, List.cons_append, readQuoted, List.append_eq]
      rw [ih rest (acc ++ ['"']) hq]
      simp
    · simp only [doubleQuotes, if_neg hc, List.cons_append]
      cases hdt : doubleQuotes t ++ '"' :: rest with
      | nil => exact absurd hdt (by simp)
      | cons d ds =>
        rw [show readQuoted (c :: d :: ds) acc = readQuoted (d :: ds) (acc ++ [c]) from by
          simp [readQuoted, hc]]
        rw [← hdt, ih rest (acc ++ [c]) hq]
        simp

/-- An unquoted cell: read up to the delimiter, trimmed. -/
theorem readCell_unquoted :
    ∀ (u : String) (rest : List Char),
      (∀ c ∈ u.data, isCellEnd c = false) → u.data.head? ≠ some '"' →
      (rest = [] ∨ ∃ c t, rest = c :: t ∧ isCellEnd c = true) →
      readCell (u.data ++ rest) = (jsTrim u, rest) := by
  intro u rest hall hhead hrest
  have hne : (u.data ++ rest).head? ≠ some '"' := by
    cases hu : u.data with
    | nil =>
      simp only [hu, List.nil_append]
      rcases hrest with rfl | ⟨c, t, rfl, hct⟩
      · simp
      · intro h
        simp only [List.head?_cons, Option.some.injEq] at h
        subst h
        simp [isCellEnd] at hct
    | cons c t =>
      intro h
      simp only [hu, List.cons_append, List.head?_cons, Option.some.injEq] at h
      exact hhead (by simp [hu, h])
  rw [readCell_not_quote hne]
  have hall2 : ∀ c ∈ u.data, (fun c => !isCellEnd c) c = true := by
    intro c hcu; simp [hall c hcu]
  rw [takeWhile_append_all hall2, dropWhile_append_all hall2]
  have htake : rest.takeWhile (fun c => !isCellEnd c) = [] := by
    rcases hrest with rfl | ⟨c, t, rfl, hct⟩
    · simp
    · simp [List.takeWhile_cons, hct]
  have hdropr : rest.dropWhile (fun c => !isCellEnd c) = rest := by
    rcases hrest with rfl | ⟨c, t, rfl, hct⟩
    · simp
    · simp [List.dropWhile_cons, hct]
  rw [htake, hdropr]
  simp [jsTrim]

/-- **C8.** Quoting in the delimited parser: a quote-wrapped cell is read
verbatim (commas and newlines literal, no trimming) with each doubled
double-quote unescaped to one quote character, while an unquoted cell is
read up to the next delimiter and trimmed of surrounding whitespace. -/
theorem c8_readCell_quoting :
    (∀ (s : String) (rest : List Char), rest.head? ≠ some '"' →
      readCell ('"' :: (doubleQuotes s.data ++ '"' :: rest)) = (s, rest)) ∧
    (∀ (u : String) (rest : List Char),
      (∀ c ∈ u.data, isCellEnd c = false) → u.data.head? ≠ some '"' →
      (rest = [] ∨ ∃ c t, rest = c :: t ∧ isCellEnd c = true) →
      readCell (u.data ++ rest) = (jsTrim u, rest)) := by
  constructor
  · intro s rest hq
    rw [readCell_quote, readQuoted_doubleQuotes s.data rest [] hq]
    simp
  · exact readCell_unquoted

/-- **C8 witness.** The cell `"a, b""c"` parses to the nine-character
string `a, b"c` (comma kept, doubled quote unescaped, no trimming). -/
theorem c8_witness : readCell "\"a, b\"\"c\"".data = ("a, b\"c", []) := by
  have h := c8_readCell_quoting.1 "a, b\"c" [] (by decide)
  have e : "\"a, b\"\"c\"".data = '"' :: (doubleQuotes "a, b\"c".data ++ '"' :: []) := by decide
  rw [e, h]

/-! ## Claim C9: imported features always carry a non-empty name -/

theorem processDataRows_names (mkId : ℕ → String) (nowIso : String)
    (hidx : String → Option ℕ) : ∀ (rows : List (List String)) (r : ℕ),
    ∀ f ∈ (processDataRows mkId nowIso hidx rows r).1, f.name ≠ "" := by
  intro rows
  induction rows with
  | nil => intro r f hf; simp [processDataRows] at hf
  | cons row rest ih =>
    intro r f hf
    simp only [processDataRows] at hf
    by_cases hname : jsTrim (getCell hidx row "name") = ""
    · rw [if_pos hname] at hf
      exact ih (r + 1) f hf
    · rw [if_neg hname] at hf
      rcases List.mem_cons.mp hf with rfl | hf'
      · exact hname
      · exact ih (r + 1) f hf'

theorem processDataRows_blank_error (mkId : ℕ → String) (nowIso : String)
    (hidx : String → Option ℕ) : ∀ (rows : List (List String)) (r i : ℕ)
    (hi : i < rows.length),
    jsTrim (getCell hidx (rows.get ⟨i, hi⟩) "name") = "" →
    (r + i + 1, "Missing required field: name") ∈ (processDataRows mkId nowIso hidx rows r).2 := by
  intro rows
  induction rows with
  | nil => intro r i hi; simp at hi
  | cons row rest ih =>
    intro r i hi hblank
    simp only [processDataRows]
    cases i with
    | zero =>
      simp only [List.get] at hblank
      rw [if_pos hblank]
      simp
    | succ i' =>
      simp only [List.get] at hblank
      have hmem := ih (r + 1) i' (by simpa using Nat.lt_of_succ_lt_succ hi) hblank
      have harith : r + 1 + i' + 1 = r + (i' + 1) + 1 := by omega
      by_cases hname : jsTrim (getCell hidx row "name") = ""
      · rw [if_pos hname]
        exact List.mem_cons_of_mem _ (harith ▸ hmem)
      · rw [if_neg hname]
        exact List.mem_append_right _ (harith ▸ hmem)

theorem processJsonItems_names (mkId : ℕ → String) (nowIso : String) :
    ∀ (items : JsonList) (idx : ℕ),
    ∀ f ∈ (processJsonItems mkId nowIso items idx).1, f.name ≠ ""
  | .nil, idx => by intro f hf; simp [processJsonItems] at hf
  | .cons item rest, idx => by
    intro f hf
    simp only [processJsonItems] at hf
    by_cases hname : jsTrim (jsonItemNameRaw item) = ""
    · rw [if_pos hname] at hf
      exact processJsonItems_names mkId nowIso rest (idx + 1) f hf
    · rw [if_neg hname] at hf
      rcases List.mem_cons.mp hf with rfl | hf'
      · exact hname
      · exact processJsonItems_names mkId nowIso rest (idx + 1) f hf'

theorem processJsonItems_blank_error (mkId : ℕ → String) (nowIso : String) :
    ∀ (items : JsonList) (idx i : ℕ) (item : Json),
    jsonListGet items i = some item →
    jsTrim (jsonItemNameRaw item) = "" →
    (idx + i + 1, "Missing required field: name") ∈ (processJsonItems mkId nowIso items idx).2
  | .nil, idx, i, item => by intro hget; simp [jsonListGet] at hget
  | .cons j rest, idx, i, item => by
    intro hget hblank
    simp only [processJsonItems]
    cases i with
    | zero =>
      simp only [jsonListGet, Option.some.injEq] at hget
      subst hget
      rw [if_pos hblank]
      simp
    | succ i' =>
      simp only [jsonListGet] at hget
      have hmem := processJsonItems_blank_error mkId nowIso rest (idx + 1) i' item hget hblank
      have harith : idx + 1 + i' + 1 = idx + (i' + 1) + 1 := by omega
      by_cases hname : jsTrim (jsonItemNameRaw j) = ""
      · rw [if_pos hname]
        exact List.mem_cons_of_mem _ (harith ▸ hmem)
      · rw [if_neg hname]
        exact harith ▸ hmem

/-- **C9.** Every feature returned by the delimited or the structured
importer has a non-empty name, and a data row / array element whose
extracted name is missing, empty, or whitespace-only is excluded from the
features and instead contributes an error entry carrying its row index. -/
theorem c9_blank_names_rejected :
    (∀ (mkId : ℕ → String) (nowIso : String) (csvText : String),
      ∀ f ∈ (parseCsvToFeatures mkId nowIso csvText).features, f.name ≠ "") ∧
    (∀ (mkId : ℕ → String) (nowIso emsg : String) (parsed : Option Json),
      ∀ f ∈ (parseJsonToFeatures mkId nowIso emsg parsed).features, f.name ≠ "") ∧
    (∀ (mkId : ℕ → String) (nowIso : String) (hidx : String → Option ℕ)
        (rows : List (List String)) (r i : ℕ) (hi : i < rows.length),
      jsTrim (getCell hidx (rows.get ⟨i, hi⟩) "name") = "" →
      (r + i + 1, "Missing required field: name")
        ∈ (processDataRows mkId nowIso hidx rows r).2) ∧
    (∀ (mkId : ℕ → String) (nowIso : String) (items : JsonList) (idx i : ℕ) (item : Json),
      jsonListGet items i = some item →
      jsTrim (jsonItemNameRaw item) = "" →
      (idx + i + 1, "Missing required field: name")
        ∈ (processJsonItems mkId nowIso items idx).2) := by
  refine ⟨?_, ?_, processDataRows_blank_error, processJsonItems_blank_error⟩
  · intro mkId nowIso csvText f hf
    unfold parseCsvToFeatures at hf
    rcases hrows : parseCsv csvText with _ | ⟨headerRow, dataRows⟩
    · rw [hrows] at hf; simp at hf
    · rw [hrows] at hf
      by_cases hmiss : REQUIRED_HEADERS.filter
          (fun h => (buildHeaderIdx headerRow 0 (fun _ => none) h).isNone) ≠ []
      · simp only [if_pos hmiss] at hf; simp at hf
      · simp only [if_neg hmiss] at hf
        exact processDataRows_names mkId nowIso _ dataRows 1 f hf
  · intro mkId nowIso emsg parsed f hf
    unfold parseJsonToFeatures at hf
    rcases parsed with _ | j
    · simp at hf
    · rcases j with _ | b | q | str | items | o <;> try simp at hf
      exact processJsonItems_names mkId nowIso items 0 f hf

/-- **C9 witness.** A data row with a whitespace-only name cell
contributes a row-2 error. -/
theorem c9_witness :
    (2, "Missing required field: name") ∈
      (processDataRows (fun _ => "id") "t"
        (buildHeaderIdx ["name", "reach", "impact", "confidence", "effort"] 0 (fun _ => none))
        [[" ", "1", "2", "3", "4"]] 1).2 := by
  have h := c9_blank_names_rejected.2.2.1 (fun _ => "id") "t"
    (buildHeaderIdx ["name", "reach", "impact", "confidence", "effort"] 0 (fun _ => none))
    [[" ", "1", "2", "3", "4"]] 1 0 (by decide) (by decide)
  simpa using h

/-! ## Evaluating the number parser on digit strings -/

theorem jsNumChars_all_digits (d : Char) (t : List Char)
    (hall : ∀ c ∈ d :: t, c.isDigit = true) :
    jsNumChars (d :: t) = some ((natOfDigits (d :: t) : ℚ)) := by
  have hd := hall d (by simp)
  have hdp : ¬(d :: t).head? = some '+' := by
    simp only [List.head?_cons, Option.some.injEq]
    intro h; subst h; exact absurd hd (by decide)
  have hdm : ¬(d :: t).head? = some '-' := by
    simp only [List.head?_cons, Option.some.injEq]
    intro h; subst h; exact absurd hd (by decide)
  have htake : (d :: t).takeWhile Char.isDigit = d :: t := by
    rw [List.takeWhile_eq_self_iff]
    exact hall
  have hdrop : (d :: t).dropWhile Char.isDigit = [] := by
    rw [List.dropWhile_eq_nil_iff]
    exact hall
  unfold jsNumChars
  rw [if_neg (by simp)]
  simp only [if_neg hdp, if_neg hdm, htake, hdrop]
  norm_num
  simp [natOfDigits]

/-! ## Claim C6: bare numeric confidence shorthand

The source's `normalizeConfidence` lookup map contains shorthand entries
`"100"/"80"/"50" → "100%"/"80%"/"50%"`, but they are unreachable: the
`Number.isFinite` branch above them already returns the raw number for any
numeric string.  The theorem below evaluates the code on the failing input
(confidence cell `"80"`): the imported feature stores the number 80, and
the computed score multiplies by 80 rather than by the 0.8 weight the
shorthand (and an explicit `"80%"` label) would give. -/
theorem c6_bare_confidence_number_behavior :
    normalizeConfidence "80" = some (Sum.inl 80) ∧
    (parseCsvToFeatures (fun _ => "id") "t"
        "name,reach,impact,confidence,effort\nX,100,Medium,80,S").features.map
      (fun f => computeRiceScore f DEFAULT_RICE_SCALES) = [some 8000] ∧
    computeRiceScore
      ⟨"id", "X", none, some 100, some (Sum.inr "Medium"), some (Sum.inr "80%"),
        some (Sum.inr "S"), none, "t", "t"⟩ DEFAULT_RICE_SCALES = some 80 := by
  have h80 : jsNumber "80" = some 80 := by
    have h := jsNumChars_all_digits '8' ['0'] (by decide)
    unfold jsNumber
    rw [show trimChars "80".data = ['8', '0'] from by decide, h,
      show natOfDigits ['8', '0'] = 80 from by decide]
    norm_num
  have h100 : jsNumber "100" = some 100 := by
    have h := jsNumChars_all_digits '1' ['0', '0'] (by decide)
    unfold jsNumber
    rw [show trimChars "100".data = ['1', '0', '0'] from by decide, h,
      show natOfDigits ['1', '0', '0'] = 100 from by decide]
    norm_num
  have h1 : normalizeConfidence "80" = some (Sum.inl 80) := by
    unfold normalizeConfidence
    rw [if_neg (show ¬jsTrim "80" = "" from by decide),
      show jsTrim "80" = "80" from by decide]
    simp only [h80]
  have h2 : toNumberOrUndefined "100" = some 100 := by
    unfold toNumberOrUndefined
    rw [if_neg (show ¬jsTrim "100" = "" from by decide), h100]
  have hni : normalizeImpact "Medium" = some (Sum.inr "Medium") := by decide
  have hnf : normalizeEffort "S" = some (Sum.inr "S") := by decide
  have hrowseq : parseCsv "name,reach,impact,confidence,effort\nX,100,Medium,80,S"
      = [["name", "reach", "impact", "confidence", "effort"],
         ["X", "100", "Medium", "80", "S"]] := by decide
  have hfeat : parseCsvToFeatures (fun _ => "id") "t"
      "name,reach,impact,confidence,effort\nX,100,Medium,80,S"
      = ⟨[⟨"id", "X", none, some 100, some (Sum.inr "Medium"), some (Sum.inl 80),
           some (Sum.inr "S"), none, "t", "t"⟩], []⟩ := by
    unfold parseCsvToFeatures
    rw [hrowseq]
    simp only [if_neg (show ¬(REQUIRED_HEADERS.filter
      (fun h => (buildHeaderIdx ["name", "reach", "impact", "confidence", "effort"] 0
        (fun _ => none) h).isNone) ≠ []) from by decide)]
    simp only [processDataRows]
    rw [show getCell (buildHeaderIdx ["name", "reach", "impact", "confidence", "effort"] 0
          (fun _ => none)) ["X", "100", "Medium", "80", "S"] "name" = "X" from by decide,
        show getCell (buildHeaderIdx ["name", "reach", "impact", "confidence", "effort"] 0
          (fun _ => none)) ["X", "100", "Medium", "80", "S"] "reach" = "100" from by decide,
        show getCell (buildHeaderIdx ["name", "reach", "impact", "confidence", "effort"] 0
          (fun _ => none)) ["X", "100", "Medium", "80", "S"] "impact" = "Medium" from by decide,
        show getCell (buildHeaderIdx ["name", "reach", "impact", "confidence", "effort"] 0
          (fun _ => none)) ["X", "100", "Medium", "80", "S"] "confidence" = "80" from by decide,
        show getCell (buildHeaderIdx ["name", "reach", "impact", "confidence", "effort"] 0
          (fun _ => none)) ["X", "100", "Medium", "80", "S"] "effort" = "S" from by decide,
        h1, h2, hni, hnf]
    decide
  refine ⟨h1, ?_, ?_⟩
  · rw [hfeat]
    show [computeRiceScore
        ⟨"id", "X", none, some 100, some (Sum.inr "Medium"), some (Sum.inl 80),
          some (Sum.inr "S"), none, "t", "t"⟩ DEFAULT_RICE_SCALES] = [some 8000]
    rw [show computeRiceScore
        ⟨"id", "X", none, some 100, some (Sum.inr "Medium"), some (Sum.inl 80),
          some (Sum.inr "S"), none, "t", "t"⟩ DEFAULT_RICE_SCALES
        = if (100 : ℚ) < 0 then none else if (1 : ℚ) ≤ 0 then none
          else some ((100 * 1 * 80) / 1) from rfl]
    norm_num
  · rw [show computeRiceScore
        ⟨"id", "X", none, some 100, some (Sum.inr "Medium"), some (Sum.inr "80%"),
          some (Sum.inr "S"), none, "t", "t"⟩ DEFAULT_RICE_SCALES
        = if (100 : ℚ) < 0 then none else if (1 : ℚ) ≤ 0 then none
          else some ((100 * 1 * (4/5)) / 1) from rfl]
    norm_num

/-! ## Case-insensitive label resolution (claim C7) -/

theorem stringDataEq {s t : String} (h : s.data = t.data) : s = t := by
  cases s; cases t; exact congrArg String.mk h

theorem toNat_charOfNat_small {n : ℕ} (h : n < 55296) : (Char.ofNat n).toNat = n := by
  unfold Char.ofNat
  rw [dif_pos (Or.inl h)]
  rfl

theorem jsCharToLower_cases {c : Char} :
    jsCharToLower c = c ∨
      ('A' ≤ c ∧ c ≤ 'Z' ∧ (jsCharToLower c).toNat = c.toNat + 32) := by
  unfold jsCharToLower
  split
  · right
    rename_i hc
    refine ⟨hc.1, hc.2, ?_⟩
    have hz : (c.val : UInt32) ≤ 90 := hc.2
    have hz' : c.val.toNat ≤ 90 := hz
    have he : c.toNat = c.val.toNat := rfl
    exact toNat_charOfNat_small (by omega)
  · left; rfl

/-- A character with code point at least 65 cannot begin a numeric literal
and is not whitespace. -/
theorem not_numStart_of_ge_65 {c : Char} (h : 65 ≤ c.toNat) :
    c.isDigit = false ∧ c ≠ '+' ∧ c ≠ '-' ∧ c ≠ '.' ∧ isJsWs c = false := by
  refine ⟨?_, ?_, ?_, ?_, ?_⟩
  · by_contra hd
    simp only [Bool.not_eq_false] at hd
    simp [Char.isDigit] at hd
    have hb : c.val ≤ 57 := by exact_mod_cast hd.2
    have a2 : c.val.toNat ≤ 57 := hb
    have a1 : (65 : ℕ) ≤ c.val.toNat := h
    omega
  · rintro rfl; revert h; decide
  · rintro rfl; revert h; decide
  · rintro rfl; revert h; decide
  · by_contra hw
    simp only [Bool.not_eq_false] at hw
    simp [isJsWs] at hw
    rcases hw with ((((rfl | rfl) | rfl) | rfl) | rfl) | rfl <;> revert h <;> decide

/-- A character whose lowercase image is an ASCII lowercase letter has code
point at least 65. -/
theorem ge_65_of_toLower_letter {c : Char}
    (h97 : 97 ≤ (jsCharToLower c).toNat) : 65 ≤ c.toNat := by
  rcases jsCharToLower_cases (c := c) with h | ⟨_, _, h⟩
  · rw [h] at h97; omega
  · omega

theorem dropWhile_head_not {p : Char → Bool} {cs : List Char}
    (h : ∀ c, cs.head? = some c → p c = false) : cs.dropWhile p = cs := by
  cases cs with
  | nil => rfl
  | cons c t => simp [List.dropWhile_cons, h c rfl]

theorem trimChars_eq_self {cs : List Char}
    (h1 : ∀ c, cs.head? = some c → isJsWs c = false)
    (h2 : ∀ c, cs.getLast? = some c → isJsWs c = false) : trimChars cs = cs := by
  unfold trimChars
  rw [dropWhile_head_not h1,
    dropWhile_head_not (fun c hc => h2 c (by rwa [List.head?_reverse] at hc)),
    List.reverse_reverse]

/-- A string whose first character cannot begin a numeric literal parses as
`NaN`. -/
theorem jsNumChars_cons_none {c : Char} {t : List Char}
    (hd : c.isDigit = false) (hp : c ≠ '+') (hm : c ≠ '-') (hdot : c ≠ '.') :
    jsNumChars (c :: t) = none := by
  unfold jsNumChars
  simp only [List.isEmpty_cons, List.head?_cons, Option.some.injEq, hp, hm, hdot,
    if_false, List.takeWhile_cons, List.dropWhile_cons, hd, Bool.false_eq_true,
    List.isEmpty_nil, List.tail_cons]
  simp

/-- Case variants of an all-lowercase-letter target: the trimmed input is
non-empty and does not parse as a number. -/
theorem label_resolution_aux (v : String) (target : String)
    (hv : jsToLower (jsTrim v) = target)
    (hne : target.data ≠ [])
    (hhead : ∀ d, target.data.head? = some d → 97 ≤ d.toNat)
    (hlast : ∀ d, target.data.getLast? = some d → isJsWs d = false) :
    ¬jsTrim v = "" ∧ jsNumber (jsTrim v) = none := by
  have hdata : (jsTrim v).data.map jsCharToLower = target.data := congrArg String.data hv
  rcases hcs : (jsTrim v).data with _ | ⟨c, t⟩
  · rw [hcs] at hdata; simp at hdata; exact absurd hdata.symm (fun h => hne h.symm)
  · have hhd : target.data.head? = some (jsCharToLower c) := by
      rw [← hdata, hcs]; simp
    have h97 : 97 ≤ (jsCharToLower c).toNat := hhead _ hhd
    have h65 : 65 ≤ c.toNat := ge_65_of_toLower_letter h97
    obtain ⟨hdg, hp, hm, hdot, hws⟩ := not_numStart_of_ge_65 h65
    constructor
    · intro h
      rw [h] at hcs; simp at hcs
    · unfold jsNumber
      have htrim : trimChars (jsTrim v).data = (jsTrim v).data := by
        refine trimChars_eq_self ?_ ?_
        · intro c' hc'
          rw [hcs] at hc'
          simp only [List.head?_cons, Option.some.injEq] at hc'
          subst hc'; exact hws
        · intro c' hc'
          have hlast' : target.data.getLast? = some (jsCharToLower c') := by
            rw [← hdata, List.getLast?_map, hc']; rfl
          have hwslast := hlast _ hlast'
          rcases jsCharToLower_cases (c := c') with h | ⟨ha, _, hn⟩
          · rwa [h] at hwslast
          · have : (65 : UInt32) ≤ c'.val := ha
            have h65' : (65 : ℕ) ≤ c'.val.toNat := this
            exact (not_numStart_of_ge_65 h65').2.2.2.2
      rw [htrim, hcs]
      exact jsNumChars_cons_none hdg hp hm hdot

/-- Case variants of an all-non-letter target (the confidence labels): the
input is the target itself. -/
theorem map_toLower_eq_self : ∀ {cs ds : List Char},
    cs.map jsCharToLower = ds →
    (∀ d ∈ ds, ¬(97 ≤ d.toNat ∧ d.toNat ≤ 122)) → cs = ds
  | [], ds, h, _ => by simpa using h
  | c :: t, ds, h, hd => by
    rcases ds with _ | ⟨d, ds'⟩
    · simp at h
    · simp only [List.map_cons, List.cons.injEq] at h
      have hcd : c = d := by
        rcases jsCharToLower_cases (c := c) with hcc | ⟨ha, hz, hn⟩
        · rw [← hcc, h.1]
        · exfalso
          apply hd d (by simp)
          rw [← h.1]
          have ha0 : (65 : UInt32) ≤ c.val := ha
          have ha1 : (65 : ℕ) ≤ c.val.toNat := ha0
          have hz0 : (c.val : UInt32) ≤ 90 := hz
          have hz1 : c.val.toNat ≤ 90 := hz0
          have he : c.toNat = c.val.toNat := rfl
          omega
      rw [hcd, map_toLower_eq_self h.2 (fun x hx => hd x (by simp [hx]))]

/-- **C7 counterexample.** The Score Calculator's label lookup is exact
(case-sensitive): the stored value `"high"` matches the scale label
`"High"` up to letter case, yet it resolves to nothing and the feature gets
no score, while the numeric weight 2 gives a score — contradicting the
claim that resolution as used by the Score Calculator is case-insensitive
and that either representation computes identically. -/
theorem c7_counterexample :
    toNumericImpact (some (Sum.inr "high")) DEFAULT_RICE_SCALES = none ∧
    jsToLower "high" = jsToLower "High" ∧
    computeRiceScore
      ⟨"i", "X", none, some 10, some (Sum.inr "high"), some (Sum.inl 1),
        some (Sum.inl 1), none, "t", "t"⟩ DEFAULT_RICE_SCALES = none ∧
    computeRiceScore
      ⟨"i", "X", none, some 10, some (Sum.inl 2), some (Sum.inl 1),
        some (Sum.inl 1), none, "t", "t"⟩ DEFAULT_RICE_SCALES = some 20 := by
  refine ⟨by decide, by decide, by decide, ?_⟩
  rw [show computeRiceScore
      ⟨"i", "X", none, some 10, some (Sum.inl 2), some (Sum.inl 1),
        some (Sum.inl 1), none, "t", "t"⟩ DEFAULT_RICE_SCALES
      = if (10 : ℚ) < 0 then none else if (1 : ℚ) ≤ 0 then none
        else some ((10 * 2 * 1) / 1) from rfl]
  norm_num

/-- **C7 (amended).** Case-insensitive label resolution happens in the
Import Normalizer: any input whose trimmed, lowercased form equals a scale
label's lowercase form is normalized to the canonical label (for
confidence, whose labels contain no letters, the match is literal).  The
Score Calculator's own lookup is exact, and for a canonical (exact-case)
label the two stored representations — the label or its numeric weight —
compute identical scores. -/
theorem c7_amended_label_resolution :
    ((∀ v : String, jsToLower (jsTrim v) = "massive" →
        normalizeImpact v = some (Sum.inr "Massive")) ∧
     (∀ v : String, jsToLower (jsTrim v) = "high" →
        normalizeImpact v = some (Sum.inr "High")) ∧
     (∀ v : String, jsToLower (jsTrim v) = "medium" →
        normalizeImpact v = some (Sum.inr "Medium")) ∧
     (∀ v : String, jsToLower (jsTrim v) = "low" →
        normalizeImpact v = some (Sum.inr "Low")) ∧
     (∀ v : String, jsToLower (jsTrim v) = "minimal" →
        normalizeImpact v = some (Sum.inr "Minimal"))) ∧
    ((∀ v : String, jsToLower (jsTrim v) = "100%" →
        normalizeConfidence v = some (Sum.inr "100%")) ∧
     (∀ v : String, jsToLower (jsTrim v) = "80%" →
        normalizeConfidence v = some (Sum.inr "80%")) ∧
     (∀ v : String, jsToLower (jsTrim v) = "50%" →
        normalizeConfidence v = some (Sum.inr "50%"))) ∧
    ((∀ v : String, jsToLower (jsTrim v) = "xs" →
        normalizeEffort v = some (Sum.inr "XS")) ∧
     (∀ v : String, jsToLower (jsTrim v) = "s" →
        normalizeEffort v = some (Sum.inr "S")) ∧
     (∀ v : String, jsToLower (jsTrim v) = "m" →
        normalizeEffort v = some (Sum.inr "M")) ∧
     (∀ v : String, jsToLower (jsTrim v) = "l" →
        normalizeEffort v = some (Sum.inr "L")) ∧
     (∀ v : String, jsToLower (jsTrim v) = "xl" →
        normalizeEffort v = some (Sum.inr "XL"))) ∧
    ((∀ (f : Feature) (s : String) (w : ℚ),
        DEFAULT_RICE_SCALES.impact s = some w → f.impact = some (Sum.inr s) →
        computeRiceScore f DEFAULT_RICE_SCALES =
          computeRiceScore ⟨f.id, f.name, f.description, f.reach, some (Sum.inl w),
            f.confidence, f.effort, f.score, f.createdAtIso, f.updatedAtIso⟩
            DEFAULT_RICE_SCALES) ∧
     (∀ (f : Feature) (s : String) (w : ℚ),
        DEFAULT_RICE_SCALES.confidence s = some w → f.confidence = some (Sum.inr s) →
        computeRiceScore f DEFAULT_RICE_SCALES =
          computeRiceScore ⟨f.id, f.name, f.description, f.reach, f.impact,
            some (Sum.inl w), f.effort, f.score, f.createdAtIso, f.updatedAtIso⟩
            DEFAULT_RICE_SCALES) ∧
     (∀ (f : Feature) (s : String) (w : ℚ),
        DEFAULT_RICE_SCALES.effort s = some w → f.effort = some (Sum.inr s) →
        computeRiceScore f DEFAULT_RICE_SCALES =
          computeRiceScore ⟨f.id, f.name, f.description, f.reach, f.impact,
            f.confidence, some (Sum.inl w), f.score, f.createdAtIso, f.updatedAtIso⟩
            DEFAULT_RICE_SCALES)) := by
  refine ⟨⟨?_, ?_, ?_, ?_, ?_⟩, ⟨?_, ?_, ?_⟩, ⟨?_, ?_, ?_, ?_, ?_⟩, ⟨?_, ?_, ?_⟩⟩
  · intro v hv
    obtain ⟨hne, hnum⟩ := label_resolution_aux v "massive" hv (by decide) (by decide) (by decide)
    unfold normalizeImpact
    rw [if_neg hne]
    simp only [hnum, hv]
    decide
  · intro v hv
    obtain ⟨hne, hnum⟩ := label_resolution_aux v "high" hv (by decide) (by decide) (by decide)
    unfold normalizeImpact
    rw [if_neg hne]
    simp only [hnum, hv]
    decide
  · intro v hv
    obtain ⟨hne, hnum⟩ := label_resolution_aux v "medium" hv (by decide) (by decide) (by decide)
    unfold normalizeImpact
    rw [if_neg hne]
    simp only [hnum, hv]
    decide
  · intro v hv
    obtain ⟨hne, hnum⟩ := label_resolution_aux v "low" hv (by decide) (by decide) (by decide)
    unfold normalizeImpact
    rw [if_neg hne]
    simp only [hnum, hv]
    decide
  · intro v hv
    obtain ⟨hne, hnum⟩ := label_resolution_aux v "minimal" hv (by decide) (by decide) (by decide)
    unfold normalizeImpact
    rw [if_neg hne]
    simp only [hnum, hv]
    decide
  · intro v hv
    have hs : jsTrim v = "100%" :=
      stringDataEq (map_toLower_eq_self (congrArg String.data hv) (by decide))
    unfold normalizeConfidence
    rw [hs]
    decide
  · intro v hv
    have hs : jsTrim v = "80%" :=
      stringDataEq (map_toLower_eq_self (congrArg String.data hv) (by decide))
    unfold normalizeConfidence
    rw [hs]
    decide
  · intro v hv
    have hs : jsTrim v = "50%" :=
      stringDataEq (map_toLower_eq_self (congrArg String.data hv) (by decide))
    unfold normalizeConfidence
    rw [hs]
    decide
  · intro v hv
    obtain ⟨hne, hnum⟩ := label_resolution_aux v "xs" hv (by decide) (by decide) (by decide)
    unfold normalizeEffort
    rw [if_neg hne]
    simp only [hnum, hv]
    decide
  · intro v hv
    obtain ⟨hne, hnum⟩ := label_resolution_aux v "s" hv (by decide) (by decide) (by decide)
    unfold normalizeEffort
    rw [if_neg hne]
    simp only [hnum, hv]
    decide
  · intro v hv
    obtain ⟨hne, hnum⟩ := label_resolution_aux v "m" hv (by decide) (by decide) (by decide)
    unfold normalizeEffort
    rw [if_neg hne]
    simp only [hnum, hv]
    decide
  · intro v hv
    obtain ⟨hne, hnum⟩ := label_resolution_aux v "l" hv (by decide) (by decide) (by decide)
    unfold normalizeEffort
    rw [if_neg hne]
    simp only [hnum, hv]
    decide
  · intro v hv
    obtain ⟨hne, hnum⟩ := label_resolution_aux v "xl" hv (by decide) (by decide) (by decide)
    unfold normalizeEffort
    rw [if_neg hne]
    simp only [hnum, hv]
    decide
  · intro f s w hw hf
    unfold computeRiceScore
    simp only [toNumericImpact, hf, hw]
  · intro f s w hw hf
    unfold computeRiceScore
    simp only [toNumericConfidence, hf, hw]
  · intro f s w hw hf
    unfold computeRiceScore
    simp only [toNumericEffort, hf, hw]

/-- **C7 witness.** A padded, upper-cased label normalizes to the canonical
label, and a canonical label computes the same score as its weight. -/
theorem c7_witness :
    normalizeImpact " MASSIVE " = some (Sum.inr "Massive") ∧
    computeRiceScore
      ⟨"i", "X", none, some 10, some (Sum.inr "High"), some (Sum.inl 1),
        some (Sum.inl 1), none, "t", "t"⟩ DEFAULT_RICE_SCALES =
    computeRiceScore
      ⟨"i", "X", none, some 10, some (Sum.inl 2), some (Sum.inl 1),
        some (Sum.inl 1), none, "t", "t"⟩ DEFAULT_RICE_SCALES := by
  refine ⟨c7_amended_label_resolution.1.1 " MASSIVE " (by decide), ?_⟩
  exact c7_amended_label_resolution.2.2.2.1
    ⟨"i", "X", none, some 10, some (Sum.inr "High"), some (Sum.inl 1),
      some (Sum.inl 1), none, "t", "t"⟩ "High" 2 (by decide) rfl

/-! ## Number serialization round-trip (for claim C5) -/

theorem natOfDigits_from (ys : List Char) : ∀ (a : ℕ),
    List.foldl (fun n c => n * 10 + (c.toNat - 48)) a ys = a * 10 ^ ys.length + natOfDigits ys := by
  induction ys with
  | nil => intro a; simp [natOfDigits]
  | cons c t ih =>
    intro a
    simp only [List.foldl_cons, List.length_cons]
    rw [ih (a * 10 + (c.toNat - 48))]
    unfold natOfDigits
    simp only [List.foldl_cons]
    rw [ih (0 * 10 + (c.toNat - 48))]
    unfold natOfDigits
    ring

theorem natOfDigits_append (xs ys : List Char) :
    natOfDigits (xs ++ ys) = natOfDigits xs * 10 ^ ys.length + natOfDigits ys := by
  unfold natOfDigits
  rw [List.foldl_append]
  exact natOfDigits_from ys _

theorem natOfDigits_replicate_zero (j : ℕ) (xs : List Char) :
    natOfDigits (List.replicate j '0' ++ xs) = natOfDigits xs := by
  induction j with
  | zero => simp
  | succ n ih =>
    rw [List.replicate_succ, List.cons_append]
    unfold natOfDigits at ih ⊢
    simpa using ih

theorem isDigit_of_toNat_range {c : Char} (h1 : 48 ≤ c.toNat) (h2 : c.toNat ≤ 57) :
    c.isDigit = true := by
  simp only [Char.isDigit]
  have a1 : (48 : UInt32) ≤ c.val := by
    change (48 : ℕ) ≤ c.val.toNat
    exact h1
  have a2 : c.val ≤ 57 := by
    change c.val.toNat ≤ (57 : ℕ)
    exact h2
  simp [a1, a2, decide_eq_true_eq]

theorem natToDigitsAux_digits : ∀ (fuel n : ℕ), ∀ c ∈ natToDigitsAux fuel n, c.isDigit = true := by
  intro fuel
  induction fuel with
  | zero => intro n c hc; simp [natToDigitsAux] at hc
  | succ f ih =>
    intro n c hc
    unfold natToDigitsAux at hc
    by_cases hn : n = 0
    · simp [hn] at hc
    · rw [if_neg hn] at hc
      rcases List.mem_append.mp hc with h | h
      · exact ih _ c h
      · simp only [List.mem_singleton] at h
        subst h
        have hlt : n % 10 < 10 := Nat.mod_lt _ (by norm_num)
        have e : (Char.ofNat (48 + n % 10)).toNat = 48 + n % 10 :=
          toNat_charOfNat_small (by omega)
        exact isDigit_of_toNat_range (by omega) (by omega)

theorem natToDigitsAux_correct : ∀ (fuel n : ℕ), n ≤ fuel →
    natOfDigits (natToDigitsAux fuel n) = n := by
  intro fuel
  induction fuel with
  | zero => intro n hn; interval_cases n; simp [natToDigitsAux, natOfDigits]
  | succ f ih =>
    intro n hn
    unfold natToDigitsAux
    by_cases h0 : n = 0
    · simp [h0, natOfDigits]
    · rw [if_neg h0, natOfDigits_append]
      have hdiv : n / 10 ≤ f := by omega
      rw [ih _ hdiv]
      have e : (Char.ofNat (48 + n % 10)).toNat = 48 + n % 10 :=
        toNat_charOfNat_small (by have : n % 10 < 10 := Nat.mod_lt _ (by norm_num); omega)
      simp only [List.length_singleton, pow_one]
      unfold natOfDigits
      simp only [List.foldl_cons, List.foldl_nil, e]
      omega

theorem natToDigits_correct (n : ℕ) : natOfDigits (natToDigits n) = n :=
  natToDigitsAux_correct (n + 1) n (by omega)

theorem natToDigits_digits (n : ℕ) : ∀ c ∈ natToDigits n, c.isDigit = true :=
  natToDigitsAux_digits (n + 1) n

theorem natOfDigits_nil : natOfDigits [] = 0 := rfl

theorem jsNumChars_neg_int (c : Char) (t : List Char)
    (hall : ∀ x ∈ c :: t, x.isDigit = true) :
    jsNumChars ('-' :: c :: t) = some (-(natOfDigits (c :: t) : ℚ)) := by
  have htake : (c :: t).takeWhile Char.isDigit = c :: t :=
    List.takeWhile_eq_self_iff.mpr hall
  have hdrop : (c :: t).dropWhile Char.isDigit = [] :=
    List.dropWhile_eq_nil_iff.mpr hall
  unfold jsNumChars
  simp [htake, hdrop, natOfDigits_nil]

theorem jsNumChars_pos_dec (ip fp : List Char) (hip : ip ≠ []) (hfp : fp ≠ [])
    (hd1 : ∀ c ∈ ip, c.isDigit = true) (hd2 : ∀ c ∈ fp, c.isDigit = true) :
    jsNumChars (ip ++ '.' :: fp) =
      some ((natOfDigits ip : ℚ) + (natOfDigits fp : ℚ) / 10 ^ fp.length) := by
  obtain ⟨c, t, rfl⟩ : ∃ c t, ip = c :: t := by
    cases ip with
    | nil => exact absurd rfl hip
    | cons c t => exact ⟨c, t, rfl⟩
  have hc := hd1 c (by simp)
  have hcp : ¬c = '+' := by rintro rfl; exact absurd hc (by decide)
  have hcm : ¬c = '-' := by rintro rfl; exact absurd hc (by decide)
  have htake1 : List.takeWhile Char.isDigit (c :: (t ++ '.' :: fp)) = c :: t := by
    rw [← List.cons_append, takeWhile_append_all hd1]
    simp [List.takeWhile_cons]
  have hdrop1 : List.dropWhile Char.isDigit (c :: (t ++ '.' :: fp)) = '.' :: fp := by
    rw [← List.cons_append, dropWhile_append_all hd1]
    simp [List.dropWhile_cons]
  have htake2 : fp.takeWhile Char.isDigit = fp := List.takeWhile_eq_self_iff.mpr hd2
  have hdrop2 : fp.dropWhile Char.isDigit = [] := List.dropWhile_eq_nil_iff.mpr hd2
  unfold jsNumChars
  simp [htake1, hdrop1, htake2, hdrop2, hcp, hcm, hfp, hc]

theorem jsNumChars_neg_dec (ip fp : List Char) (hip : ip ≠ []) (hfp : fp ≠ [])
    (hd1 : ∀ c ∈ ip, c.isDigit = true) (hd2 : ∀ c ∈ fp, c.isDigit = true) :
    jsNumChars ('-' :: (ip ++ '.' :: fp)) =
      some (-((natOfDigits ip : ℚ) + (natOfDigits fp : ℚ) / 10 ^ fp.length)) := by
  obtain ⟨c, t, rfl⟩ : ∃ c t, ip = c :: t := by
    cases ip with
    | nil => exact absurd rfl hip
    | cons c t => exact ⟨c, t, rfl⟩
  have hc := hd1 c (by simp)
  have htake1 : List.takeWhile Char.isDigit (c :: (t ++ '.' :: fp)) = c :: t := by
    rw [← List.cons_append, takeWhile_append_all hd1]
    simp [List.takeWhile_cons]
  have hdrop1 : List.dropWhile Char.isDigit (c :: (t ++ '.' :: fp)) = '.' :: fp := by
    rw [← List.cons_append, dropWhile_append_all hd1]
    simp [List.dropWhile_cons]
  have htake2 : fp.takeWhile Char.isDigit = fp := List.takeWhile_eq_self_iff.mpr hd2
  have hdrop2 : fp.dropWhile Char.isDigit = [] := List.dropWhile_eq_nil_iff.mpr hd2
  unfold jsNumChars
  simp [htake1, hdrop1, htake2, hdrop2, hfp, hc]

theorem isJsWs_false_of_digit {c : Char} (h : c.isDigit = true) : isJsWs c = false := by
  by_contra hw
  simp only [Bool.not_eq_false] at hw
  simp [isJsWs] at hw
  rcases hw with ((((rfl | rfl) | rfl) | rfl) | rfl) | rfl <;> exact absurd h (by decide)

theorem qPadded_digits (q : ℚ) : ∀ x ∈ qPadded q, x.isDigit = true := by
  intro x hx
  rcases List.mem_append.mp hx with h | h
  · rw [List.eq_of_mem_replicate h]; decide
  · exact natToDigits_digits _ x h

theorem qPadded_length (q : ℚ) : decExp q + 1 ≤ (qPadded q).length := by
  unfold qPadded
  rw [List.length_append, List.length_replicate]
  omega

theorem qPadded_val (q : ℚ) : natOfDigits (qPadded q) = (qMantissa q).natAbs := by
  unfold qPadded
  rw [natOfDigits_replicate_zero, natToDigits_correct]

theorem qDigitsPart_chars (q : ℚ) :
    ∀ x ∈ qDigitsPart q, x.isDigit = true ∨ x = '.' := by
  intro x hx
  unfold qDigitsPart at hx
  by_cases hk0 : decExp q = 0
  · rw [if_pos hk0] at hx; exact Or.inl (qPadded_digits q x hx)
  · rw [if_neg hk0] at hx
    rcases List.mem_append.mp hx with h | h
    · exact Or.inl (qPadded_digits q x (List.mem_of_mem_take h))
    · rcases List.mem_cons.mp h with rfl | h
      · exact Or.inr rfl
      · exact Or.inl (qPadded_digits q x (List.mem_of_mem_drop h))

theorem qToString_chars (q : ℚ) (hfd : IsFiniteDecimal q) :
    ∀ c ∈ (qToString q).data, c.isDigit = true ∨ c = '-' ∨ c = '.' := by
  intro c hc
  unfold qToString at hc
  rw [if_pos (show q.den ∣ 10 ^ decExp q from hfd)] at hc
  by_cases hneg : qMantissa q < 0
  · rw [if_pos hneg] at hc
    rcases List.mem_cons.mp hc with rfl | h
    · exact Or.inr (Or.inl rfl)
    · rcases qDigitsPart_chars q c h with h | rfl
      · exact Or.inl h
      · exact Or.inr (Or.inr rfl)
  · rw [if_neg hneg] at hc
    rcases qDigitsPart_chars q c hc with h | rfl
    · exact Or.inl h
    · exact Or.inr (Or.inr rfl)

theorem qMantissa_cast (q : ℚ) (hfd : IsFiniteDecimal q) :
    ((qMantissa q : ℤ) : ℚ) = q * 10 ^ decExp q := by
  have hden : (q.den : ℚ) ≠ 0 := by
    exact_mod_cast q.den_nz
  have hD : ((10 ^ decExp q / q.den : ℕ) : ℚ) * (q.den : ℚ) = (10 : ℚ) ^ decExp q := by
    rw [← Nat.cast_mul, Nat.div_mul_cancel hfd]
    push_cast
    ring
  have hqd : q * (q.den : ℚ) = (q.num : ℚ) := by
    have h1 : ((q.num : ℚ) / (q.den : ℚ)) * (q.den : ℚ) = (q.num : ℚ) :=
      div_mul_cancel₀ _ hden
    rwa [Rat.num_div_den q] at h1
  unfold qMantissa
  rw [Int.cast_mul, Int.cast_natCast]
  calc (q.num : ℚ) * ((10 ^ decExp q / q.den : ℕ) : ℚ)
      = (q * (q.den : ℚ)) * ((10 ^ decExp q / q.den : ℕ) : ℚ) := by rw [hqd]
    _ = q * (((10 ^ decExp q / q.den : ℕ) : ℚ) * (q.den : ℚ)) := by ring
    _ = q * 10 ^ decExp q := by rw [hD]

theorem jsNumber_qToString (q : ℚ) (hfd : IsFiniteDecimal q) :
    jsNumber (qToString q) = some q := by
  have hchars := qToString_chars q hfd
  have hwsall : ∀ c ∈ (qToString q).data, isJsWs c = false := by
    intro c hc
    rcases hchars c hc with h | rfl | rfl
    · exact isJsWs_false_of_digit h
    · decide
    · decide
  have htrim : trimChars (qToString q).data = (qToString q).data :=
    trimChars_eq_self
      (fun c hc => hwsall c (List.mem_of_mem_head? hc))
      (fun c hc => hwsall c (List.mem_of_mem_getLast? hc))
  unfold jsNumber
  rw [htrim]
  have hlen := qPadded_length q
  have hval := qPadded_val q
  have hdig := qPadded_digits q
  have habs : ((qMantissa q).natAbs : ℚ) / 10 ^ decExp q =
      (if qMantissa q < 0 then -q else q) := by
    by_cases hneg : qMantissa q < 0
    · rw [if_pos hneg]
      have h2 : ((qMantissa q).natAbs : ℚ) = -((qMantissa q : ℤ) : ℚ) := by
        rw [Int.cast_natAbs, Int.cast_abs]
        exact abs_of_neg (by exact_mod_cast hneg)
      rw [h2, qMantissa_cast q hfd]
      have h10 : ((10 : ℚ)) ^ decExp q ≠ 0 := by positivity
      field_simp
    · rw [if_neg hneg]
      push_neg at hneg
      have h2 : ((qMantissa q).natAbs : ℚ) = ((qMantissa q : ℤ) : ℚ) := by
        rw [Int.cast_natAbs, Int.cast_abs]
        exact abs_of_nonneg (by exact_mod_cast hneg)
      rw [h2, qMantissa_cast q hfd]
      have h10 : ((10 : ℚ)) ^ decExp q ≠ 0 := by positivity
      field_simp
  unfold qToString at *
  rw [if_pos (show q.den ∣ 10 ^ decExp q from hfd)] at *
  by_cases hk0 : decExp q = 0
  · -- plain digits, no decimal point
    have hpart : qDigitsPart q = qPadded q := by unfold qDigitsPart; rw [if_pos hk0]
    obtain ⟨c, t, hct⟩ : ∃ c t, qPadded q = c :: t := by
      rcases hp : qPadded q with _ | ⟨c, t⟩
      · rw [hp] at hlen; simp at hlen
      · exact ⟨c, t, rfl⟩
    by_cases hneg : qMantissa q < 0
    · rw [if_pos hneg]
      show jsNumChars ('-' :: qDigitsPart q) = some q
      rw [hpart, hct, jsNumChars_neg_int c t (by rw [← hct]; exact hdig)]
      rw [← hct, hval]
      rw [if_pos hneg] at habs
      rw [hk0] at habs
      simp only [pow_zero, div_one] at habs
      rw [habs]
      simp
    · rw [if_neg hneg]
      show jsNumChars (qDigitsPart q) = some q
      rw [hpart, hct, jsNumChars_all_digits c t (by rw [← hct]; exact hdig)]
      rw [← hct, hval]
      rw [if_neg hneg] at habs
      rw [hk0] at habs
      simp only [pow_zero, div_one] at habs
      rw [habs]
  · -- digits with an embedded decimal point
    set L := (qPadded q).length with hL
    set ip := (qPadded q).take (L - decExp q) with hip
    set fp := (qPadded q).drop (L - decExp q) with hfp
    have hsplit : ip ++ fp = qPadded q := List.take_append_drop _ _
    have hfplen : fp.length = decExp q := by
      rw [hfp, List.length_drop]
      omega
    have hiplen : 1 ≤ ip.length := by
      rw [hip, List.length_take]
      omega
    have hipne : ip ≠ [] := by
      intro h; rw [h] at hiplen; simp at hiplen
    have hfpne : fp ≠ [] := by
      intro h
      rw [h] at hfplen
      simp at hfplen
      omega
    have hipd : ∀ x ∈ ip, x.isDigit = true := fun x hx =>
      hdig x (hsplit ▸ List.mem_append_left _ hx)
    have hfpd : ∀ x ∈ fp, x.isDigit = true := fun x hx =>
      hdig x (hsplit ▸ List.mem_append_right _ hx)
    have hnat : natOfDigits ip * 10 ^ decExp q + natOfDigits fp = (qMantissa q).natAbs := by
      rw [← hval, ← hsplit, natOfDigits_append, hfplen]
    have hkey : (natOfDigits ip : ℚ) + (natOfDigits fp : ℚ) / 10 ^ fp.length =
        ((qMantissa q).natAbs : ℚ) / 10 ^ decExp q := by
      have h10 : ((10 : ℚ)) ^ decExp q ≠ 0 := by positivity
      rw [hfplen]
      field_simp
      exact_mod_cast hnat
    have hpart : qDigitsPart q = ip ++ '.' :: fp := by
      unfold qDigitsPart
      rw [if_neg hk0]
    by_cases hneg : qMantissa q < 0
    · rw [if_pos hneg]
      show jsNumChars ('-' :: qDigitsPart q) = some q
      rw [hpart, jsNumChars_neg_dec ip fp hipne hfpne hipd hfpd, hkey]
      rw [if_pos hneg] at habs
      rw [habs]
      simp
    · rw [if_neg hneg]
      show jsNumChars (qDigitsPart q) = some q
      rw [hpart, jsNumChars_pos_dec ip fp hipne hfpne hipd hfpd, hkey]
      rw [if_neg hneg] at habs
      rw [habs]

/-! ## Cell-level round trip (claim C5) -/

/-- A cell value that the export/import cycle carries through unchanged:
trim-invariant and free of newline characters. -/
def CellOk (s : String) : Prop :=
  jsTrim s = s ∧ ∀ c ∈ s.data, c ≠ '\n' ∧ c ≠ '\r'

theorem cellOk_empty : CellOk "" := by
  constructor
  · rfl
  · intro c hc; simp at hc

theorem cellOk_qToString (q : ℚ) (hfd : IsFiniteDecimal q) : CellOk (qToString q) := by
  have hws : ∀ c ∈ (qToString q).data, isJsWs c = false := by
    intro c hc
    rcases qToString_chars q hfd c hc with h | rfl | rfl
    · exact isJsWs_false_of_digit h
    · decide
    · decide
  constructor
  · refine stringDataEq ?_
    show trimChars (qToString q).data = (qToString q).data
    exact trimChars_eq_self (fun c hc => hws c (List.mem_of_mem_head? hc))
      (fun c hc => hws c (List.mem_of_mem_getLast? hc))
  · intro c hc
    rcases qToString_chars q hfd c hc with h | rfl | rfl
    · constructor <;> rintro rfl <;> exact absurd h (by decide)
    · decide
    · decide

theorem readCell_escCell (s : String) (hok : CellOk s) (rest : List Char)
    (hrest : rest = [] ∨ rest.head? = some ',' ∨ rest.head? = some '\n') :
    readCell ((escCell s).data ++ rest) = (s, rest) := by
  have hrq : rest.head? ≠ some '"' := by
    rcases hrest with rfl | h | h
    · simp
    · simp [h]
    · simp [h]
  unfold escCell
  by_cases hq : (s.data.contains ',' || s.data.contains '"') = true
  · rw [if_pos hq]
    show readCell (('"' :: (doubleQuotes s.data ++ ['"'])) ++ rest) = (s, rest)
    have he : ('"' :: (doubleQuotes s.data ++ ['"'])) ++ rest
        = '"' :: (doubleQuotes s.data ++ '"' :: rest) := by simp
    rw [he, readCell_quote, readQuoted_doubleQuotes s.data rest [] hrq]
    simp
  · rw [if_neg hq]
    simp only [Bool.or_eq_true, not_or, Bool.not_eq_true] at hq
    have hnc : ',' ∉ s.data := by simpa using hq.1
    have hnq : '"' ∉ s.data := by simpa using hq.2
    have hall : ∀ c ∈ s.data, isCellEnd c = false := by
      intro c hc
      have h1 : c ≠ ',' := by rintro rfl; exact hnc hc
      obtain ⟨h2, h3⟩ := hok.2 c hc
      simp [isCellEnd, h1, h2, h3]
    have hhead : s.data.head? ≠ some '"' := by
      intro h
      exact hnq (List.mem_of_mem_head? h)
    have hrest2 : rest = [] ∨ ∃ c t, rest = c :: t ∧ isCellEnd c = true := by
      rcases hrest with rfl | h | h
      · exact Or.inl rfl
      · rcases rest with _ | ⟨c, t⟩
        · simp at h
        · simp only [List.head?_cons, Option.some.injEq] at h
          subst h
          exact Or.inr ⟨',', t, rfl, by decide⟩
      · rcases rest with _ | ⟨c, t⟩
        · simp at h
        · simp only [List.head?_cons, Option.some.injEq] at h
          subst h
          exact Or.inr ⟨'\n', t, rfl, by decide⟩
    rw [readCell_unquoted s rest hall hhead hrest2, hok.1]

theorem escCell_data_nil_iff (s : String) : (escCell s).data = [] ↔ s = "" := by
  unfold escCell
  by_cases hq : (s.data.contains ',' || s.data.contains '"') = true
  · rw [if_pos hq]
    show ('"' :: (doubleQuotes s.data ++ ['"'])) = [] ↔ s = ""
    constructor
    · intro h; simp at h
    · intro h
      subst h
      simp at hq
  · rw [if_neg hq]
    constructor
    · intro h; exact stringDataEq h
    · intro h; subst h; rfl

theorem parseRow_join : ∀ (cells : List String) (fuel : ℕ) (rest : List Char),
    cells ≠ [] →
    (∀ s ∈ cells, CellOk s) →
    cells.length ≤ fuel →
    (rest = [] ∨ ∃ t, rest = '\n' :: t) →
    ∃ cells', (cells' = cells ∨ (cells.getLast? = some "" ∧ cells' = cells.dropLast)) ∧
      parseRowAux fuel (joinChars ',' (cells.map (fun s => (escCell s).data)) ++ rest) =
        (cells', if rest = [] then [] else rest.tail)
  | [], _, _, hne, _, _, _ => absurd rfl hne
  | [s], fuel, rest, _, hok, hlen, hrest => by
    obtain ⟨f, rfl⟩ : ∃ f, fuel = f + 1 := by
      cases fuel with
      | zero => simp at hlen
      | succ f => exact ⟨f, rfl⟩
    have hjoin : joinChars ',' ([s].map (fun s => (escCell s).data)) = (escCell s).data := by
      simp [joinChars]
    rw [hjoin]
    have hrest' : rest = [] ∨ rest.head? = some ',' ∨ rest.head? = some '\n' := by
      rcases hrest with rfl | ⟨t, rfl⟩
      · exact Or.inl rfl
      · exact Or.inr (Or.inr rfl)
    refine ⟨[s], Or.inl rfl, ?_⟩
    unfold parseRowAux
    rw [readCell_escCell s (hok s (by simp)) rest hrest']
    rcases hrest with rfl | ⟨t, rfl⟩
    · simp [skipLine]
    · simp [skipLine, List.dropWhile]
  | s :: s2 :: tl, fuel, rest, _, hok, hlen, hrest => by
    obtain ⟨f, rfl⟩ : ∃ f, fuel = f + 1 := by
      cases fuel with
      | zero => simp at hlen
      | succ f => exact ⟨f, rfl⟩
    have hjoin : joinChars ',' ((s :: s2 :: tl).map (fun s => (escCell s).data))
        = (escCell s).data ++
          ',' :: joinChars ',' ((s2 :: tl).map (fun s => (escCell s).data)) := by
      simp [joinChars]
    rw [hjoin]
    set B := joinChars ',' ((s2 :: tl).map (fun s => (escCell s).data)) with hB
    have hassoc : ((escCell s).data ++ ',' :: B) ++ rest
        = (escCell s).data ++ (',' :: (B ++ rest)) := by simp
    rw [hassoc]
    unfold parseRowAux
    rw [readCell_escCell s (hok s (by simp)) (',' :: (B ++ rest))
      (Or.inr (Or.inl rfl))]
    simp only [List.head?_cons, if_pos rfl, List.tail_cons]
    by_cases hemp : (B ++ rest).isEmpty = true
    · simp only [List.isEmpty_eq_true, List.append_eq_nil] at hemp
      obtain ⟨hBnil, hrnil⟩ := hemp
      have hs2 : s2 = "" ∧ tl = [] := by
        rw [hB] at hBnil
        by_cases htl : tl = []
        · subst htl
          simp only [List.map, joinChars, List.isEmpty_nil, if_true] at hBnil
          exact ⟨(escCell_data_nil_iff s2).mp hBnil, rfl⟩
        · exfalso
          obtain ⟨x, xs, rfl⟩ : ∃ x xs, tl = x :: xs := by
            cases tl with
            | nil => exact absurd rfl htl
            | cons x xs => exact ⟨x, xs, rfl⟩
          simp [List.map, joinChars] at hBnil
      obtain ⟨rfl, rfl⟩ := hs2
      subst hrnil
      refine ⟨[s], Or.inr ⟨rfl, rfl⟩, ?_⟩
      rw [if_pos (show (B ++ ([] : List Char)).isEmpty = true from by simp [hBnil])]
      simp
    · rw [if_neg hemp]
      obtain ⟨tail', htail', hrec⟩ := parseRow_join (s2 :: tl) f rest (by simp)
        (fun x hx => hok x (by simp [hx])) (by simpa using hlen) hrest
      rw [hrec]
      refine ⟨s :: tail', ?_, rfl⟩
      rcases htail' with rfl | ⟨hlast, rfl⟩
      · exact Or.inl rfl
      · refine Or.inr ⟨?_, ?_⟩
        · rw [List.getLast?_cons_cons]
          exact hlast
        · simp

theorem joinChars_length_ge (sep : Char) : ∀ (ls : List (List Char)),
    ls.length ≤ (joinChars sep ls).length + 1
  | [] => by simp [joinChars]
  | [l] => by simp [joinChars]
  | l :: l2 :: rest => by
    have ih := joinChars_length_ge sep (l2 :: rest)
    simp only [joinChars, List.isEmpty_cons, Bool.false_eq_true, if_false, List.length_cons,
      List.length_append] at ih ⊢
    omega

theorem line_head_safe (s : String) (cells : List String) (hok : CellOk s)
    (hne : cells ≠ []) :
    ∀ c, (joinChars ',' ((s :: cells).map (fun x => (escCell x).data))).head? = some c →
      (c = '\n' || c = '\r') = false := by
  intro c hc
  have hjoin : joinChars ',' ((s :: cells).map (fun x => (escCell x).data))
      = (escCell s).data ++ ',' :: joinChars ',' (cells.map (fun x => (escCell x).data)) := by
    cases cells with
    | nil => exact absurd rfl hne
    | cons x xs => simp [joinChars]
  rw [hjoin] at hc
  unfold escCell at hc
  by_cases hq : (s.data.contains ',' || s.data.contains '"') = true
  · rw [if_pos hq] at hc
    simp only [List.cons_append, List.head?_cons, Option.some.injEq] at hc
    subst hc
    decide
  · rw [if_neg hq] at hc
    cases hs : s.data with
    | nil =>
      rw [hs] at hc
      simp only [List.nil_append, List.head?_cons, Option.some.injEq] at hc
      subst hc
      decide
    | cons c0 t =>
      rw [hs] at hc
      simp only [List.cons_append, List.head?_cons, Option.some.injEq] at hc
      obtain ⟨h1, h2⟩ := hok.2 c0 (by rw [hs]; simp)
      rw [← hc]
      simp [h1, h2]

theorem line_ne_nil (s : String) (cells : List String) (hne : cells ≠ []) :
    joinChars ',' ((s :: cells).map (fun x => (escCell x).data)) ≠ [] := by
  have hjoin : joinChars ',' ((s :: cells).map (fun x => (escCell x).data))
      = (escCell s).data ++ ',' :: joinChars ',' (cells.map (fun x => (escCell x).data)) := by
    cases cells with
    | nil => exact absurd rfl hne
    | cons x xs => simp [joinChars]
  rw [hjoin]
  simp

theorem parseRowsAux_nil : ∀ (f : ℕ), parseRowsAux f [] = [] := by
  intro f
  cases f <;> simp [parseRowsAux]

theorem parseRows_join : ∀ (rows : List (List String)) (fuel : ℕ),
    (∀ r ∈ rows, 3 ≤ r.length ∧ ∀ s ∈ r, CellOk s) →
    rows.length + 1 ≤ fuel →
    ∃ rows', List.Forall₂
        (fun (r r' : List String) => r' = r ∨ (r.getLast? = some "" ∧ r' = r.dropLast))
        rows rows' ∧
      parseRowsAux fuel
        (joinChars '\n' (rows.map (fun r => joinChars ',' (r.map (fun s => (escCell s).data)))))
        = rows'
  | [], fuel, _, hfuel => by
    obtain ⟨f, rfl⟩ : ∃ f, fuel = f + 1 := by
      cases fuel with
      | zero => omega
      | succ f => exact ⟨f, rfl⟩
    exact ⟨[], List.Forall₂.nil, by simp [joinChars, parseRowsAux]⟩
  | r :: rs, fuel, hok, hfuel => by
    obtain ⟨f, rfl⟩ : ∃ f, fuel = f + 1 := by
      cases fuel with
      | zero => omega
      | succ f => exact ⟨f, rfl⟩
    obtain ⟨hrlen, hrok⟩ := hok r (by simp)
    obtain ⟨s, cells, rfl⟩ : ∃ s cells, r = s :: cells := by
      cases r with
      | nil => simp at hrlen
      | cons s cells => exact ⟨s, cells, rfl⟩
    have hcellsne : cells ≠ [] := by
      intro h
      rw [h] at hrlen
      simp at hrlen
    have hheadline := line_head_safe s cells (hrok s (by simp)) hcellsne
    have hlinene := line_ne_nil s cells hcellsne
    have hlinelen : (s :: cells).length ≤
        (joinChars ',' ((s :: cells).map (fun x => (escCell x).data))).length + 1 := by
      have := joinChars_length_ge ',' ((s :: cells).map (fun x => (escCell x).data))
      simpa using this
    have hr'ne : ∀ r' : List String,
        (r' = s :: cells ∨ ((s :: cells).getLast? = some "" ∧ r' = (s :: cells).dropLast)) →
        ¬(r' = [""]) := by
      intro r' hr' h
      rcases hr' with rfl | ⟨_, rfl⟩
      · rw [h] at hrlen; simp at hrlen
      · have hdl : (s :: cells).dropLast.length = cells.length := by simp
        rw [h] at hdl
        simp at hdl
        have hc : 3 ≤ cells.length + 1 := by simpa using hrlen
        omega
    by_cases hrs : rs = []
    · subst hrs
      rw [show joinChars '\n'
            (((s :: cells) :: []).map (fun r => joinChars ',' (r.map (fun x => (escCell x).data))))
          = joinChars ',' ((s :: cells).map (fun x => (escCell x).data)) from by
        simp [joinChars]]
      unfold parseRowsAux
      rw [dropWhile_head_not hheadline]
      rw [if_neg (by simpa using hlinene)]
      obtain ⟨r', hr', hparse⟩ := parseRow_join (s :: cells)
        ((joinChars ',' ((s :: cells).map (fun x => (escCell x).data))).length + 1) []
        (by simp) hrok hlinelen (Or.inl rfl)
      rw [show joinChars ',' ((s :: cells).map (fun x => (escCell x).data)) ++ ([] : List Char)
            = joinChars ',' ((s :: cells).map (fun x => (escCell x).data)) from by simp] at hparse
      rw [if_pos rfl] at hparse
      rw [hparse]
      rw [if_neg (hr'ne r' hr')]
      exact ⟨[r'], List.Forall₂.cons (by tauto) List.Forall₂.nil, by simp [parseRowsAux_nil]⟩
    · obtain ⟨r2, rs', rfl⟩ : ∃ r2 rs', rs = r2 :: rs' := by
        cases rs with
        | nil => exact absurd rfl hrs
        | cons r2 rs' => exact ⟨r2, rs', rfl⟩
      rw [show joinChars '\n'
            (((s :: cells) :: r2 :: rs').map
              (fun r => joinChars ',' (r.map (fun x => (escCell x).data))))
          = joinChars ',' ((s :: cells).map (fun x => (escCell x).data)) ++
            '\n' :: joinChars '\n'
              ((r2 :: rs').map (fun r => joinChars ',' (r.map (fun x => (escCell x).data))))
          from by simp [joinChars]]
      unfold parseRowsAux
      have hheadfull : ∀ c, (joinChars ',' ((s :: cells).map (fun x => (escCell x).data)) ++
          '\n' :: joinChars '\n'
            ((r2 :: rs').map (fun r => joinChars ',' (r.map (fun x => (escCell x).data))))).head?
          = some c → (c = '\n' || c = '\r') = false := by
        intro c hc
        cases hl : joinChars ',' ((s :: cells).map (fun x => (escCell x).data)) with
        | nil => exact absurd hl hlinene
        | cons c0 t =>
          rw [hl] at hc
          simp only [List.cons_append, List.head?_cons, Option.some.injEq] at hc
          rw [← hc]
          exact hheadline c0 (by rw [hl]; rfl)
      rw [dropWhile_head_not hheadfull]
      rw [if_neg (by
        cases hl : joinChars ',' ((s :: cells).map (fun x => (escCell x).data)) with
        | nil => exact absurd hl hlinene
        | cons c0 t => simp [hl])]
      obtain ⟨r', hr', hparse⟩ := parseRow_join (s :: cells)
        ((joinChars ',' ((s :: cells).map (fun x => (escCell x).data)) ++
          '\n' :: joinChars '\n'
            ((r2 :: rs').map (fun r => joinChars ',' (r.map (fun x => (escCell x).data))))).length + 1)
        ('\n' :: joinChars '\n'
          ((r2 :: rs').map (fun r => joinChars ',' (r.map (fun x => (escCell x).data)))))
        (by simp) hrok
        (by
          have h1 := hlinelen
          have h2 := hrlen
          simp only [List.length_append, List.length_cons] at h1 h2 ⊢
          omega)
        (Or.inr ⟨_, rfl⟩)
      rw [if_neg (by simp), List.tail_cons] at hparse
      rw [hparse]
      rw [if_neg (hr'ne r' hr')]
      obtain ⟨rows', hrows', hrec⟩ := parseRows_join (r2 :: rs') f
        (fun x hx => hok x (by simp [hx])) (by simpa using hfuel)
      refine ⟨r' :: rows', List.Forall₂.cons (by tauto) hrows', ?_⟩
      show r' :: parseRowsAux f (joinChars '\n'
          ((r2 :: rs').map (fun r => joinChars ',' (r.map (fun x => (escCell x).data))))) = r' :: rows'
      rw [hrec]

/-! ## The export/import round trip (claim C5) -/

theorem qToString_ne_empty (q : ℚ) (hfd : IsFiniteDecimal q) : qToString q ≠ "" := by
  intro h
  have hd : (qToString q).data = [] := by rw [h]
  unfold qToString at hd
  rw [if_pos (show q.den ∣ 10 ^ decExp q from hfd)] at hd
  have hlen := qPadded_length q
  by_cases hneg : qMantissa q < 0
  · rw [if_pos hneg] at hd
    have hd2 : '-' :: qDigitsPart q = [] := hd
    simp at hd2
  · rw [if_neg hneg] at hd
    have hd2 : qDigitsPart q = [] := hd
    unfold qDigitsPart at hd2
    by_cases hk : decExp q = 0
    · rw [if_pos hk] at hd2
      rw [hd2] at hlen
      simp at hlen
    · rw [if_neg hk] at hd2
      simp at hd2

/-- The header index built by `parseCsvToFeatures` from the canonical
exported header row. -/
def exportHeaderIdx : String → Option ℕ :=
  buildHeaderIdx HEADER_ORDER 0 (fun _ => none)

theorem getCell_six (c0 c1 c2 c3 c4 c5 : String) :
    getCell exportHeaderIdx [c0, c1, c2, c3, c4, c5] "name" = c0 ∧
    getCell exportHeaderIdx [c0, c1, c2, c3, c4, c5] "reach" = c1 ∧
    getCell exportHeaderIdx [c0, c1, c2, c3, c4, c5] "impact" = c2 ∧
    getCell exportHeaderIdx [c0, c1, c2, c3, c4, c5] "confidence" = c3 ∧
    getCell exportHeaderIdx [c0, c1, c2, c3, c4, c5] "effort" = c4 ∧
    getCell exportHeaderIdx [c0, c1, c2, c3, c4, c5] "description" = c5 :=
  ⟨rfl, rfl, rfl, rfl, rfl, rfl⟩

theorem getCell_five (c0 c1 c2 c3 c4 : String) :
    getCell exportHeaderIdx [c0, c1, c2, c3, c4] "name" = c0 ∧
    getCell exportHeaderIdx [c0, c1, c2, c3, c4] "reach" = c1 ∧
    getCell exportHeaderIdx [c0, c1, c2, c3, c4] "impact" = c2 ∧
    getCell exportHeaderIdx [c0, c1, c2, c3, c4] "confidence" = c3 ∧
    getCell exportHeaderIdx [c0, c1, c2, c3, c4] "effort" = c4 ∧
    getCell exportHeaderIdx [c0, c1, c2, c3, c4] "description" = "" :=
  ⟨rfl, rfl, rfl, rfl, rfl, rfl⟩

theorem toNumberOrUndefined_qToString (q : ℚ) (hfd : IsFiniteDecimal q) :
    toNumberOrUndefined (qToString q) = some q := by
  unfold toNumberOrUndefined
  rw [(cellOk_qToString q hfd).1, if_neg (qToString_ne_empty q hfd)]
  exact jsNumber_qToString q hfd

theorem normalizeImpact_qToString (q : ℚ) (hfd : IsFiniteDecimal q) :
    normalizeImpact (qToString q) = some (Sum.inl q) := by
  unfold normalizeImpact
  rw [(cellOk_qToString q hfd).1, if_neg (qToString_ne_empty q hfd)]
  simp only [jsNumber_qToString q hfd]

theorem normalizeConfidence_qToString (q : ℚ) (hfd : IsFiniteDecimal q) :
    normalizeConfidence (qToString q) = some (Sum.inl q) := by
  unfold normalizeConfidence
  rw [(cellOk_qToString q hfd).1, if_neg (qToString_ne_empty q hfd)]
  simp only [jsNumber_qToString q hfd]

theorem normalizeEffort_qToString (q : ℚ) (hfd : IsFiniteDecimal q) :
    normalizeEffort (qToString q) = some (Sum.inl q) := by
  unfold normalizeEffort
  rw [(cellOk_qToString q hfd).1, if_neg (qToString_ne_empty q hfd)]
  simp only [jsNumber_qToString q hfd]

/-- A value of a label-or-number field whose serialized cell re-imports
exactly: a finite-decimal number, or a canonical scale-table label. -/
def CanonLabel (labels : List String) : NumOrLabel → Prop
  | Sum.inl q => IsFiniteDecimal q
  | Sum.inr s => s ∈ labels

theorem toNumberOrUndefined_cell (v : Option ℚ) :
    (∀ q, v = some q → IsFiniteDecimal q) →
    toNumberOrUndefined (match v with | some q => qToString q | none => "") = v := by
  intro h
  rcases v with _ | q
  · rfl
  · exact toNumberOrUndefined_qToString q (h q rfl)

theorem normalizeImpact_cell (v : Option NumOrLabel) :
    (∀ x, v = some x → CanonLabel ["Massive", "High", "Medium", "Low", "Minimal"] x) →
    normalizeImpact (match v with
      | some (Sum.inl q) => qToString q | some (Sum.inr s) => s | none => "") = v := by
  intro h
  rcases v with _ | (q | s)
  · rfl
  · exact normalizeImpact_qToString q (h _ rfl)
  · have hs : s ∈ ["Massive", "High", "Medium", "Low", "Minimal"] := h _ rfl
    show normalizeImpact s = some (Sum.inr s)
    fin_cases hs <;> decide

theorem normalizeConfidence_cell (v : Option NumOrLabel) :
    (∀ x, v = some x → CanonLabel ["100%", "80%", "50%"] x) →
    normalizeConfidence (match v with
      | some (Sum.inl q) => qToString q | some (Sum.inr s) => s | none => "") = v := by
  intro h
  rcases v with _ | (q | s)
  · rfl
  · exact normalizeConfidence_qToString q (h _ rfl)
  · have hs : s ∈ ["100%", "80%", "50%"] := h _ rfl
    show normalizeConfidence s = some (Sum.inr s)
    fin_cases hs <;> decide

theorem normalizeEffort_cell (v : Option NumOrLabel) :
    (∀ x, v = some x → CanonLabel ["XS", "S", "M", "L", "XL"] x) →
    normalizeEffort (match v with
      | some (Sum.inl q) => qToString q | some (Sum.inr s) => s | none => "") = v := by
  intro h
  rcases v with _ | (q | s)
  · rfl
  · exact normalizeEffort_qToString q (h _ rfl)
  · have hs : s ∈ ["XS", "S", "M", "L", "XL"] := h _ rfl
    show normalizeEffort s = some (Sum.inr s)
    fin_cases hs <;> decide

/-- The six fields the round-trip claim compares (id, timestamps and the
derived score are excluded). -/
def coreFields (f : Feature) :
    String × Option ℚ × Option NumOrLabel × Option NumOrLabel × Option NumOrLabel ×
      Option String :=
  (f.name, f.reach, f.impact, f.confidence, f.effort, f.description)

instance : DecidableEq (Option NumOrLabel × Option String) := inferInstance

instance : DecidableEq (Option NumOrLabel × Option NumOrLabel × Option String) := inferInstance

instance : DecidableEq (Option NumOrLabel × Option NumOrLabel × Option NumOrLabel × Option String) := inferInstance

instance : DecidableEq (Option ℚ × Option NumOrLabel × Option NumOrLabel × Option NumOrLabel × Option String) := inferInstance

instance : DecidableEq (String × Option ℚ × Option NumOrLabel × Option NumOrLabel × Option NumOrLabel × Option String) := inferInstance

/-- Features whose serialized row re-imports to the same core fields: the
name is non-empty, trim-invariant and newline-free; a present description
likewise; numeric fields are finite decimals (every JS double printed
without exponent is one); label fields hold canonical scale-table labels. -/
def FeatureExportable (f : Feature) : Prop :=
  CellOk f.name ∧ f.name ≠ "" ∧
  (∀ q, f.reach = some q → IsFiniteDecimal q) ∧
  (∀ x, f.impact = some x → CanonLabel ["Massive", "High", "Medium", "Low", "Minimal"] x) ∧
  (∀ x, f.confidence = some x → CanonLabel ["100%", "80%", "50%"] x) ∧
  (∀ x, f.effort = some x → CanonLabel ["XS", "S", "M", "L", "XL"] x) ∧
  (∀ d, f.description = some d → CellOk d ∧ d ≠ "")

theorem rowCells_ok (f : Feature) (hf : FeatureExportable f) :
    3 ≤ (rowCells f).length ∧ ∀ s ∈ rowCells f, CellOk s := by
  obtain ⟨hn, -, hr, hi, hc, he, hd⟩ := hf
  refine ⟨by simp [rowCells], ?_⟩
  intro s hs
  simp only [rowCells, List.mem_cons, List.not_mem_nil, or_false] at hs
  rcases hs with rfl | rfl | rfl | rfl | rfl | rfl
  · exact hn
  · rcases hq : f.reach with _ | q
    · exact cellOk_empty
    · exact cellOk_qToString q (hr q hq)
  · rcases hq : f.impact with _ | (q | t)
    · exact cellOk_empty
    · exact cellOk_qToString q (hi _ hq)
    · have ht : t ∈ ["Massive", "High", "Medium", "Low", "Minimal"] := hi _ hq
      show CellOk t
      fin_cases ht <;> exact ⟨by decide, by decide⟩
  · rcases hq : f.confidence with _ | (q | t)
    · exact cellOk_empty
    · exact cellOk_qToString q (hc _ hq)
    · have ht : t ∈ ["100%", "80%", "50%"] := hc _ hq
      show CellOk t
      fin_cases ht <;> exact ⟨by decide, by decide⟩
  · rcases hq : f.effort with _ | (q | t)
    · exact cellOk_empty
    · exact cellOk_qToString q (he _ hq)
    · have ht : t ∈ ["XS", "S", "M", "L", "XL"] := he _ hq
      show CellOk t
      fin_cases ht <;> exact ⟨by decide, by decide⟩
  · rcases hq : f.description with _ | d
    · exact cellOk_empty
    · exact (hd d hq).1

/-- The serialized cells of an exportable feature, named, with the facts the
re-import needs about each. -/
theorem rowCells_spec (f : Feature) (hf : FeatureExportable f) :
    ∃ c1 c2 c3 c4 c5, rowCells f = [f.name, c1, c2, c3, c4, c5] ∧
      toNumberOrUndefined c1 = f.reach ∧ normalizeImpact c2 = f.impact ∧
      normalizeConfidence c3 = f.confidence ∧ normalizeEffort c4 = f.effort ∧
      (f.reach = none → c1 = "") ∧ (f.impact = none → c2 = "") ∧
      (f.confidence = none → c3 = "") ∧ (f.effort = none → c4 = "") ∧
      (if jsTrim c5 = "" then none else some (jsTrim c5)) = f.description ∧
      (∀ d, f.description = some d → c5 = d ∧ d ≠ "") := by
  obtain ⟨hnOk, hnNe, hR, hI, hC, hE, hD⟩ := hf
  refine ⟨_, _, _, _, _, rfl, toNumberOrUndefined_cell f.reach hR,
    normalizeImpact_cell f.impact hI, normalizeConfidence_cell f.confidence hC,
    normalizeEffort_cell f.effort hE, ?_, ?_, ?_, ?_, ?_, ?_⟩
  · intro h; rw [h]
  · intro h; rw [h]
  · intro h; rw [h]
  · intro h; rw [h]
  · rcases hq : f.description with _ | d
    · rfl
    · show (if jsTrim d = "" then none else some (jsTrim d)) = some d
      rw [(hD d hq).1.1, if_neg (hD d hq).2]
  · intro d hq
    rw [hq]
    exact ⟨rfl, (hD d hq).2⟩

/-- One step of the data-row loop on a row whose cells re-normalize to the
fields of `f`: the row contributes exactly `f`'s core fields and no error. -/
theorem processDataRows_cons_eval (mkId : ℕ → String) (nowIso : String)
    (row : List String) (rest : List (List String)) (r : ℕ) (f : Feature)
    (hname : jsTrim (getCell exportHeaderIdx row "name") = f.name)
    (hne : f.name ≠ "")
    (h1 : toNumberOrUndefined (getCell exportHeaderIdx row "reach") = f.reach)
    (h2 : normalizeImpact (getCell exportHeaderIdx row "impact") = f.impact)
    (h2e : f.impact = none → getCell exportHeaderIdx row "impact" = "")
    (h3 : normalizeConfidence (getCell exportHeaderIdx row "confidence") = f.confidence)
    (h3e : f.confidence = none → getCell exportHeaderIdx row "confidence" = "")
    (h4 : normalizeEffort (getCell exportHeaderIdx row "effort") = f.effort)
    (h4e : f.effort = none → getCell exportHeaderIdx row "effort" = "")
    (h5 : (if jsTrim (getCell exportHeaderIdx row "description") = "" then none
        else some (jsTrim (getCell exportHeaderIdx row "description"))) = f.description) :
    processDataRows mkId nowIso exportHeaderIdx (row :: rest) r =
      (⟨mkId r, f.name, f.description, f.reach, f.impact, f.confidence, f.effort,
          none, nowIso, nowIso⟩ ::
          (processDataRows mkId nowIso exportHeaderIdx rest (r + 1)).1,
        (processDataRows mkId nowIso exportHeaderIdx rest (r + 1)).2) := by
  have he2 : ¬(jsTrim (getCell exportHeaderIdx row "impact") ≠ "" ∧
      normalizeImpact (getCell exportHeaderIdx row "impact") = none) := by
    rintro ⟨hne2, hnone⟩
    rw [h2] at hnone
    rw [h2e hnone] at hne2
    exact hne2 rfl
  have he3 : ¬(jsTrim (getCell exportHeaderIdx row "confidence") ≠ "" ∧
      normalizeConfidence (getCell exportHeaderIdx row "confidence") = none) := by
    rintro ⟨hne3, hnone⟩
    rw [h3] at hnone
    rw [h3e hnone] at hne3
    exact hne3 rfl
  have he4 : ¬(jsTrim (getCell exportHeaderIdx row "effort") ≠ "" ∧
      normalizeEffort (getCell exportHeaderIdx row "effort") = none) := by
    rintro ⟨hne4, hnone⟩
    rw [h4] at hnone
    rw [h4e hnone] at hne4
    exact hne4 rfl
  simp only [processDataRows]
  rw [hname, if_neg hne, if_neg he2, if_neg he3, if_neg he4]
  rw [show (exportHeaderIdx "description").isSome = true from rfl]
  rw [h1, h2, h3, h4]
  simp only [if_true, h5]
  simp

/-- The data-row loop over serialized rows of exportable features
reconstructs exactly the features' core fields, with no soft errors. -/
theorem processDataRows_roundtrip (mkId : ℕ → String) (nowIso : String) :
    ∀ (features : List Feature) (rows' : List (List String)) (r : ℕ),
    (∀ f ∈ features, FeatureExportable f) →
    List.Forall₂ (fun (f : Feature) (row : List String) =>
        row = rowCells f ∨ ((rowCells f).getLast? = some "" ∧ row = (rowCells f).dropLast))
      features rows' →
    (processDataRows mkId nowIso exportHeaderIdx rows' r).1.map coreFields
        = features.map coreFields ∧
      (processDataRows mkId nowIso exportHeaderIdx rows' r).2 = [] := by
  intro features
  induction features with
  | nil =>
    intro rows' r _ hrel
    cases hrel
    exact ⟨rfl, rfl⟩
  | cons f fs ih =>
    intro rows' r hexp hrel
    obtain ⟨row, rest, hrow, htail, rfl⟩ := List.forall₂_cons_left_iff.mp hrel
    have hfe := hexp f (List.mem_cons_self f fs)
    have hnOk : CellOk f.name := hfe.1
    have hnNe : f.name ≠ "" := hfe.2.1
    obtain ⟨c1, c2, c3, c4, c5, hcells, hc1, hc2, hc3, hc4, hn1, hn2, hn3, hn4, hdesc, hdsome⟩ :=
      rowCells_spec f hfe
    have hstep : processDataRows mkId nowIso exportHeaderIdx (row :: rest) r =
        (⟨mkId r, f.name, f.description, f.reach, f.impact, f.confidence, f.effort,
            none, nowIso, nowIso⟩ ::
            (processDataRows mkId nowIso exportHeaderIdx rest (r + 1)).1,
          (processDataRows mkId nowIso exportHeaderIdx rest (r + 1)).2) := by
      rcases hrow with rfl | ⟨hlast, rfl⟩
      · rw [hcells]
        obtain ⟨g0, g1, g2, g3, g4, g5⟩ := getCell_six f.name c1 c2 c3 c4 c5
        refine processDataRows_cons_eval mkId nowIso _ rest r f ?_ hnNe ?_ ?_ ?_ ?_ ?_ ?_ ?_ ?_
        · rw [g0, hnOk.1]
        · rw [g1, hc1]
        · rw [g2, hc2]
        · intro h; rw [g2]; exact hn2 h
        · rw [g3, hc3]
        · intro h; rw [g3]; exact hn3 h
        · rw [g4, hc4]
        · intro h; rw [g4]; exact hn4 h
        · rw [g5]; exact hdesc
      · rw [hcells] at hlast
        simp only [List.getLast?_cons_cons, List.getLast?_singleton, Option.some.injEq] at hlast
        subst hlast
        have hdnone : f.description = none := by
          rw [← hdesc, if_pos (show jsTrim "" = "" from rfl)]
        rw [hcells]
        rw [show ([f.name, c1, c2, c3, c4, ""] : List String).dropLast
            = [f.name, c1, c2, c3, c4] from rfl]
        obtain ⟨g0, g1, g2, g3, g4, g5⟩ := getCell_five f.name c1 c2 c3 c4
        refine processDataRows_cons_eval mkId nowIso _ rest r f ?_ hnNe ?_ ?_ ?_ ?_ ?_ ?_ ?_ ?_
        · rw [g0, hnOk.1]
        · rw [g1, hc1]
        · rw [g2, hc2]
        · intro h; rw [g2]; exact hn2 h
        · rw [g3, hc3]
        · intro h; rw [g3]; exact hn3 h
        · rw [g4, hc4]
        · intro h; rw [g4]; exact hn4 h
        · rw [g5, hdnone]
          rfl
    obtain ⟨ihmap, iherr⟩ := ih rest (r + 1) (fun g hg => hexp g (List.mem_cons_of_mem f hg)) htail
    rw [hstep]
    constructor
    · simp only [List.map_cons, ihmap]
      rfl
    · exact iherr

theorem joinChars_length_pos (sep : Char) : ∀ (ls : List (List Char)),
    (∀ l ∈ ls, 1 ≤ l.length) → ls.length ≤ (joinChars sep ls).length
  | [], _ => by simp [joinChars]
  | l :: rest, h => by
    unfold joinChars
    by_cases hr : rest.isEmpty
    · rw [if_pos hr]
      have hre : rest = [] := by simpa using hr
      subst hre
      simpa using h l (by simp)
    · rw [if_neg hr]
      have ih := joinChars_length_pos sep rest (fun x hx => h x (by simp [hx]))
      have h1 := h l (by simp)
      simp only [List.length_append, List.length_cons]
      omega

theorem headerCells_esc :
    HEADER_ORDER.map String.data = HEADER_ORDER.map (fun s => (escCell s).data) := by
  decide

/-- The serialized document is the newline-join of the comma-joins of the
escaped cells of the header row and of each feature row. -/
theorem featuresToCsv_data (features : List Feature) :
    (featuresToCsv features).data
      = joinChars '\n' (joinChars ',' (HEADER_ORDER.map (fun s => (escCell s).data)) ::
          features.map (fun f => joinChars ',' ((rowCells f).map (fun s => (escCell s).data)))) := by
  show joinChars '\n' ((joinStrings ',' HEADER_ORDER ::
      features.map (fun f => joinStrings ',' ((rowCells f).map escCell))).map String.data) = _
  rw [List.map_cons]
  rw [show (joinStrings ',' HEADER_ORDER).data
      = joinChars ',' (HEADER_ORDER.map (fun s => (escCell s).data)) from by
    rw [show (joinStrings ',' HEADER_ORDER).data
        = joinChars ',' (HEADER_ORDER.map String.data) from rfl, headerCells_esc]]
  rw [List.map_map]
  congr 1

/-- C5 (amended).  The claim's unconditional round trip fails (names and
descriptions are trimmed on import, a blank name is rejected, non-canonical
labels and empty-string descriptions are not reproduced); it holds for
exportable features: name non-empty, trim-invariant and newline/CR-free, a
present description likewise and non-empty, numeric fields finite decimals,
and label fields canonical scale-table labels.  For such lists,
`featuresToCsv` followed by `parseCsvToFeatures` reproduces every feature's
name, reach, impact, confidence, effort and description in order (id,
timestamps and score excluded), with no import errors. -/
theorem c5_amended_roundtrip (mkId : ℕ → String) (nowIso : String)
    (features : List Feature) (hexp : ∀ f ∈ features, FeatureExportable f) :
    (parseCsvToFeatures mkId nowIso (featuresToCsv features)).features.map coreFields
        = features.map coreFields ∧
      (parseCsvToFeatures mkId nowIso (featuresToCsv features)).errors = [] := by
  have hdata := featuresToCsv_data features
  have hconds : ∀ r ∈ HEADER_ORDER :: features.map rowCells,
      3 ≤ r.length ∧ ∀ s ∈ r, CellOk s := by
    intro r hr
    rcases List.mem_cons.mp hr with rfl | hr2
    · refine ⟨by decide, ?_⟩
      intro s hs
      fin_cases hs <;> exact ⟨by decide, by decide⟩
    · obtain ⟨f, hf, rfl⟩ := List.mem_map.mp hr2
      exact rowCells_ok f (hexp f hf)
  have hfuel : (HEADER_ORDER :: features.map rowCells).length + 1
      ≤ (featuresToCsv features).data.length + 1 := by
    rw [hdata]
    have hlines : ∀ l ∈ joinChars ',' (HEADER_ORDER.map (fun s => (escCell s).data)) ::
        features.map (fun f => joinChars ',' ((rowCells f).map (fun s => (escCell s).data))),
        1 ≤ l.length := by
      intro l hl
      rcases List.mem_cons.mp hl with rfl | hl2
      · decide
      · obtain ⟨f, hf, rfl⟩ := List.mem_map.mp hl2
        have := joinChars_length_ge ',' ((rowCells f).map (fun s => (escCell s).data))
        simp only [List.length_map] at this
        have h6 : (rowCells f).length = 6 := by simp [rowCells]
        omega
    have := joinChars_length_pos '\n' _ hlines
    simp only [List.length_cons, List.length_map] at this ⊢
    omega
  obtain ⟨rows', hrel, hparse⟩ := parseRows_join (HEADER_ORDER :: features.map rowCells)
    ((featuresToCsv features).data.length + 1) hconds hfuel
  simp only [List.map_cons, List.map_map, Function.comp_def] at hparse
  rw [← hdata] at hparse
  obtain ⟨hdr', rest', hhdr, htail, rfl⟩ := List.forall₂_cons_left_iff.mp hrel
  have hhdr' : hdr' = HEADER_ORDER := by
    rcases hhdr with rfl | ⟨hbad, h2⟩
    · rfl
    · exact absurd hbad (by decide)
  subst hhdr'
  have htail2 := List.forall₂_map_left_iff.mp htail
  unfold parseCsvToFeatures parseCsv
  rw [hparse]
  simp only [if_neg (show ¬(REQUIRED_HEADERS.filter
    (fun h => (buildHeaderIdx HEADER_ORDER 0 (fun _ => none) h).isNone) ≠ []) from by decide)]
  rw [show buildHeaderIdx HEADER_ORDER 0 (fun _ => none) = exportHeaderIdx from rfl]
  obtain ⟨hm, he⟩ := processDataRows_roundtrip mkId nowIso features rest' 1 hexp htail2
  exact ⟨hm, he⟩

/-- Counterexample to the unconditional C5 round trip: a name with trailing
whitespace is trimmed by the import normalizer, so the re-imported feature
differs in its core fields. -/
theorem c5_counterexample :
    (parseCsvToFeatures (fun _ => "") ""
        (featuresToCsv [⟨"", "A ", none, none, none, none, none, none, "", ""⟩])).features.map
      coreFields
      ≠ ([⟨"", "A ", none, none, none, none, none, none, "", ""⟩] : List Feature).map
          coreFields := by
  decide

theorem c5_witness :
    (∀ f ∈ ([⟨"", "Alpha", some "Key feature", some 100, some (Sum.inr "High"),
        some (Sum.inr "80%"), some (Sum.inr "M"), none, "", ""⟩] : List Feature),
      FeatureExportable f) ∧
    ((parseCsvToFeatures (fun _ => "id") "t"
        (featuresToCsv [⟨"", "Alpha", some "Key feature", some 100, some (Sum.inr "High"),
          some (Sum.inr "80%"), some (Sum.inr "M"), none, "", ""⟩])).features.map coreFields
        = ([⟨"", "Alpha", some "Key feature", some 100, some (Sum.inr "High"),
            some (Sum.inr "80%"), some (Sum.inr "M"), none, "", ""⟩] : List Feature).map
            coreFields ∧
      (parseCsvToFeatures (fun _ => "id") "t"
        (featuresToCsv [⟨"", "Alpha", some "Key feature", some 100, some (Sum.inr "High"),
          some (Sum.inr "80%"), some (Sum.inr "M"), none, "", ""⟩])).errors = []) := by
  have hexp : ∀ f ∈ ([⟨"", "Alpha", some "Key feature", some 100, some (Sum.inr "High"),
      some (Sum.inr "80%"), some (Sum.inr "M"), none, "", ""⟩] : List Feature),
      FeatureExportable f := by
    intro f hf
    simp only [List.mem_singleton] at hf
    subst hf
    refine ⟨⟨by decide, by decide⟩, by decide, ?_, ?_, ?_, ?_, ?_⟩
    · intro q hq
      have h : (100 : ℚ) = q := by injection hq
      subst h
      decide
    · intro x hx
      have h : (Sum.inr "High" : NumOrLabel) = x := by injection hx
      subst h
      exact (by decide : ("High" : String) ∈ ["Massive", "High", "Medium", "Low", "Minimal"])
    · intro x hx
      have h : (Sum.inr "80%" : NumOrLabel) = x := by injection hx
      subst h
      exact (by decide : ("80%" : String) ∈ ["100%", "80%", "50%"])
    · intro x hx
      have h : (Sum.inr "M" : NumOrLabel) = x := by injection hx
      subst h
      exact (by decide : ("M" : String) ∈ ["XS", "S", "M", "L", "XL"])
    · intro d hd
      have h : ("Key feature" : String) = d := by injection hd
      subst h
      exact ⟨⟨by decide, by decide⟩, by decide⟩
  exact ⟨hexp, c5_amended_roundtrip (fun _ => "id") "t" _ hexp⟩
